import Mathlib

/-!
Verification of the pyfoma FST core (`src/pyfoma/fst.py`) against its
natural-language specification.

Shallow embedding conventions:
* a Python string (symbol) is a `List Char` (`Symb`); the empty symbol `[]` is
  epsilon;
* a transition label is a 1- or 2-tuple of symbols (`Label.one` / `Label.two`);
* Python `float` weights are embedded as `ℚ`; `float("inf")` marks a state as
  non-final and is never read by any embedded operation (finality is decided by
  membership in `finalstates`), so `State.finalweight` is a plain `ℚ`;
* a Python `dict` is an insertion-ordered association list;
* a Python `set` of `Transition` objects uses the default identity hash
  (the class defines neither `__eq__` nor `__hash__`), so it is embedded as a
  list of transitions carrying a unique object id `oid`, with set union
  deduplicating on `oid`; each `Transition(...)` construction allocates a
  fresh `oid`;
* states are referenced by `Nat` ids; an `FST` maps ids to `State` records.
-/

/-- A symbol: a Python string, as a list of characters.  `[]` is epsilon. -/
abbrev Symb := List Char

/-- A transition label: the tuple `(x,)` (input = output = x) or `(i, o)`. -/
inductive Label where
  | one (s : Symb)
  | two (i o : Symb)
deriving DecidableEq, Repr

/-- First member of the label tuple (`label[0]`). -/
def Label.first : Label → Symb
  | .one s => s
  | .two i _ => i

/-- Last member of the label tuple (`label[-1]`). -/
def Label.last : Label → Symb
  | .one s => s
  | .two _ o => o

/-- Lookup in an insertion-ordered association list (Python `dict` access). -/
def alistGet {α β : Type} [DecidableEq α] (l : List (α × β)) (k : α) : Option β :=
  (l.find? (fun p => decide (p.1 = k))).map (·.2)

/-- `d[k] = v` on an insertion-ordered association list: overwrite in place if
the key is present, otherwise append the new binding at the end. -/
def alistSet {α β : Type} [DecidableEq α] : List (α × β) → α → β → List (α × β)
  | [], k, v => [(k, v)]
  | p :: rest, k, v => if p.1 = k then (k, v) :: rest else p :: alistSet rest k v

/-- `d.pop(k)`: remove the binding for `k` (first occurrence). -/
def alistPop {α β : Type} [DecidableEq α] : List (α × β) → α → List (α × β)
  | [], _ => []
  | p :: rest, k => if p.1 = k then rest else p :: alistPop rest k

/-- Embeds `class Transition` (`fst.py`): target state reference, label,
weight.  `oid` embeds Python object identity: the class defines neither
`__eq__` nor `__hash__`, so `set` membership over transitions compares
object identities. -/
structure Transition where
  targetstate : Nat
  label : Label
  weight : ℚ
  oid : Nat
deriving DecidableEq, Repr

/-- Union of two Python sets of `Transition` objects: identity-based
deduplication on `oid`.  (List order stands in for the unordered set.) -/
def tsetUnion (a b : List Transition) : List Transition :=
  a ++ b.filter (fun t => a.all (fun u => decide (u.oid ≠ t.oid)))

/-- Embeds `class State` (`fst.py`): the label-indexed transition map, the two
lazily computed symbol indices (`_transitionsin` / `_transitionsout`, `none`
when not yet computed), the final weight and the optional name.
`float("inf")` (the `State()` default, meaning "not final") is never read by
any embedded operation — finality is decided by the `finalstates` set — so the
default is represented by `0`. -/
structure State where
  transitions : List (Label × List Transition)
  cacheIn : Option (List (Symb × List (Label × Transition)))
  cacheOut : Option (List (Symb × List (Label × Transition)))
  finalweight : ℚ
  name : Option Symb
deriving DecidableEq, Repr

/-- `State()`: fresh state, no transitions, indices not yet computed. -/
def State.stNew : State := ⟨[], none, none, 0, none⟩

/-- All transitions of a state in one list (bucket order). -/
def State.allTransList (s : State) : List Transition :=
  s.transitions.flatMap (·.2)

/-- A `Nat` unused as an `oid` by any transition of `s`: embeds the freshness
of the object identity allocated by `Transition(...)` in `add_transition`. -/
def State.freshOid (s : State) : Nat :=
  (s.allTransList.map (·.oid)).foldr max 0 + 1

/-- `State.add_transition(self, other, label, weight)`:
`self.transitions[label] = self.transitions.get(label, set()) | {newtrans}`
with `newtrans = Transition(other, label, weight)` a fresh object.
The cached indices are left untouched (as in the source). -/
def State.add_transition (s : State) (other : Nat) (label : Label) (weight : ℚ) : State :=
  let newtrans : Transition := ⟨other, label, weight, s.freshOid⟩
  ⟨alistSet s.transitions label
      (tsetUnion ((alistGet s.transitions label).getD []) [newtrans]),
   s.cacheIn, s.cacheOut, s.finalweight, s.name⟩

/-- `State.remove_transitions_to_targets(self, targets)`: rebuild the map,
keeping in each bucket only transitions whose target is not in `targets`, and
dropping a label entirely when its bucket becomes empty.  The cached indices
are left untouched (as in the source). -/
def State.remove_transitions_to_targets (s : State) (targets : List Nat) : State :=
  ⟨s.transitions.filterMap (fun lb =>
      if (lb.2.filter (fun t => decide (t.targetstate ∉ targets))).isEmpty then none
      else some (lb.1, lb.2.filter (fun t => decide (t.targetstate ∉ targets)))),
   s.cacheIn, s.cacheOut, s.finalweight, s.name⟩

/-- `State.rename_label(self, original, new)`: reassign the `label` field of
every transition in the `original` bucket, merge that bucket into the `new`
one (`self.transitions[new] = self.transitions.get(new, set()) | ...`), then
`pop` the `original` key.  `none` embeds the `KeyError` raised when `original`
is not a key.  The cached indices are left untouched (as in the source). -/
def State.rename_label (s : State) (original new : Label) : Option State :=
  match alistGet s.transitions original with
  | none => none
  | some bucket =>
    let moved := bucket.map (fun t => ⟨t.targetstate, new, t.weight, t.oid⟩)
    let merged := tsetUnion ((alistGet s.transitions new).getD []) moved
    let t1 := alistSet s.transitions new merged
    some ⟨alistPop t1 original, s.cacheIn, s.cacheOut, s.finalweight, s.name⟩

/-- Add `(label, t)` to the symbol index under key `k`
(`index[k] |= {(label, t)}` on a `defaultdict(set)`). -/
def indexAdd (idx : List (Symb × List (Label × Transition))) (k : Symb)
    (v : Label × Transition) : List (Symb × List (Label × Transition)) :=
  alistSet idx k (((alistGet idx k).getD []) ++ [v])

/-- Body of the first-use computation in the `transitionsin` /
`transitionsout` properties, keyed by `side` (`label[0]` resp. `label[-1]`). -/
def buildIndex (side : Label → Symb) (trans : List (Label × List Transition)) :
    List (Symb × List (Label × Transition)) :=
  trans.foldl (fun acc lb =>
    lb.2.foldl (fun acc2 t => indexAdd acc2 (side lb.1) (lb.1, t)) acc) []

/-- `State.transitionsin` property: return the cached input-symbol index if
present, otherwise compute it, store it, and return it.  The state (with its
possibly newly filled cache) is returned alongside, since the property
mutates `self._transitionsin`. -/
def State.transitionsin (s : State) : State × List (Symb × List (Label × Transition)) :=
  match s.cacheIn with
  | some idx => (s, idx)
  | none =>
    let idx := buildIndex Label.first s.transitions
    (⟨s.transitions, some idx, s.cacheOut, s.finalweight, s.name⟩, idx)

/-- `State.transitionsout` property: same as `transitionsin`, keyed by the
output symbol `label[-1]`. -/
def State.transitionsout (s : State) : State × List (Symb × List (Label × Transition)) :=
  match s.cacheOut with
  | some idx => (s, idx)
  | none =>
    let idx := buildIndex Label.last s.transitions
    (⟨s.transitions, s.cacheIn, some idx, s.finalweight, s.name⟩, idx)

/-- The transition set stored for a label (`transitions.get(l, set())`). -/
def State.bucketOf (s : State) (l : Label) : List Transition :=
  (alistGet s.transitions l).getD []

/-- The invariant of `State` checked in claim C10: every transition stored
under a label key carries that label in its `label` field. -/
def State.labelsConsistent (s : State) : Prop :=
  ∀ lb ∈ s.transitions, ∀ t ∈ lb.2, t.label = lb.1

lemma alistGet_alistSet_self {α β : Type} [DecidableEq α]
    (l : List (α × β)) (k : α) (v : β) : alistGet (alistSet l k v) k = some v := by
  induction l with
  | nil => simp [alistGet, alistSet, List.find?]
  | cons p rest ih =>
    by_cases h : p.1 = k
    · simp [alistSet, h, alistGet, List.find?]
    · simp only [alistSet, if_neg h]
      simpa [alistGet, List.find?, h] using ih

lemma mem_alistSet {α β : Type} [DecidableEq α]
    {l : List (α × β)} {k : α} {v : β} {p : α × β} (hp : p ∈ alistSet l k v) :
    p ∈ l ∨ p = (k, v) := by
  induction l with
  | nil => simpa [alistSet] using hp
  | cons q rest ih =>
    by_cases h : q.1 = k
    · rcases (by simpa [alistSet, h] using hp : p = (k, v) ∨ p ∈ rest) with h1 | h1
      · exact Or.inr h1
      · exact Or.inl (List.mem_cons_of_mem _ h1)
    · rcases (by simpa [alistSet, h] using hp : p = q ∨ p ∈ alistSet rest k v) with h1 | h1
      · exact Or.inl (h1 ▸ List.mem_cons_self _ _)
      · rcases ih h1 with h2 | h2
        · exact Or.inl (List.mem_cons_of_mem _ h2)
        · exact Or.inr h2

lemma mem_alistPop {α β : Type} [DecidableEq α]
    {l : List (α × β)} {k : α} {p : α × β} (hp : p ∈ alistPop l k) : p ∈ l := by
  induction l with
  | nil => simpa [alistPop] using hp
  | cons q rest ih =>
    by_cases h : q.1 = k
    · exact List.mem_cons_of_mem _ (by simpa [alistPop, h] using hp)
    · rcases (by simpa [alistPop, h] using hp : p = q ∨ p ∈ alistPop rest k) with h1 | h1
      · exact h1 ▸ List.mem_cons_self _ _
      · exact List.mem_cons_of_mem _ (ih h1)

lemma alistGet_mem {α β : Type} [DecidableEq α]
    {l : List (α × β)} {k : α} {v : β} (h : alistGet l k = some v) : (k, v) ∈ l := by
  induction l with
  | nil => simp [alistGet, List.find?] at h
  | cons q rest ih =>
    by_cases hq : q.1 = k
    · have : q.2 = v := by simpa [alistGet, List.find?, hq] using h
      have : q = (k, v) := Prod.ext hq this
      exact this ▸ List.mem_cons_self _ _
    · exact List.mem_cons_of_mem _ (ih (by simpa [alistGet, List.find?, hq] using h))

lemma alistGet_eq_none {α β : Type} [DecidableEq α]
    {l : List (α × β)} {k : α} (h : k ∉ l.map (·.1)) : alistGet l k = none := by
  induction l with
  | nil => simp [alistGet, List.find?]
  | cons q rest ih =>
    simp only [List.map_cons, List.mem_cons] at h
    push_neg at h
    have h1 : ¬ q.1 = k := fun hc => h.1 hc.symm
    simpa [alistGet, List.find?, h1] using ih h.2

lemma mem_tsetUnion {a b : List Transition} {t : Transition}
    (h : t ∈ tsetUnion a b) : t ∈ a ∨ t ∈ b := by
  rcases List.mem_append.mp h with h1 | h1
  · exact Or.inl h1
  · exact Or.inr (List.mem_of_mem_filter h1)

lemma le_foldr_max (l : List Nat) (x : Nat) (hx : x ∈ l) : x ≤ l.foldr max 0 := by
  induction l with
  | nil => simp at hx
  | cons y rest ih =>
    rcases List.mem_cons.mp hx with h1 | h1
    · simpa [h1] using Nat.le_max_left y (rest.foldr max 0)
    · exact le_trans (ih h1) (by simpa using Nat.le_max_right y (rest.foldr max 0))

lemma oid_lt_freshOid {s : State} {t : Transition}
    (h : t ∈ s.allTransList) : t.oid < s.freshOid := by
  exact Nat.lt_succ_of_le
    (le_foldr_max (s.allTransList.map (·.oid)) t.oid (List.mem_map_of_mem _ h))

lemma bucketOf_subset_allTransList {s : State} {l : Label} {t : Transition}
    (h : t ∈ s.bucketOf l) : t ∈ s.allTransList := by
  unfold State.bucketOf at h
  rcases hg : alistGet s.transitions l with _ | b
  · simp [hg] at h
  · rw [hg] at h
    simp only [Option.getD_some] at h
    exact List.mem_flatMap.mpr ⟨(l, b), alistGet_mem hg, h⟩

lemma add_transition_bucket_self (s : State) (tgt : Nat) (l : Label) (w : ℚ) :
    (s.add_transition tgt l w).bucketOf l
      = s.bucketOf l ++ [⟨tgt, l, w, s.freshOid⟩] := by
  unfold State.add_transition State.bucketOf
  simp only [alistGet_alistSet_self, Option.getD_some]
  unfold tsetUnion
  congr 1
  rw [List.filter_cons]
  have : ∀ u ∈ (alistGet s.transitions l).getD [], u.oid ≠ s.freshOid := by
    intro u hu
    exact Nat.ne_of_lt (oid_lt_freshOid (bucketOf_subset_allTransList hu))
  simp only [List.filter_nil]
  rw [if_pos]
  simp only [List.all_eq_true, decide_eq_true_eq]
  intro u hu
  exact this u hu

/-- For claim C3 (counterexample): adding the identical (target, label, weight)
triple twice does NOT leave the state with the same transitions as adding it
once — the second call stores a second, identity-distinct `Transition`
object, because Python `set` membership uses the default identity hash. -/
theorem add_transition_twice_changes_state :
    ((State.stNew.add_transition 1 (Label.one ['a']) 0).add_transition 1 (Label.one ['a']) 0).transitions
      ≠ (State.stNew.add_transition 1 (Label.one ['a']) 0).transitions := by
  decide

/-- For claim C3 (amended): `add_transition` is not idempotent.  Every call,
duplicate arguments or not, appends a fresh identity-distinct `Transition`
object to the label's bucket, so calling it twice grows the stored transition
set by one each time instead of merging the duplicate. -/
theorem add_transition_duplicate_grows_set (s : State) (tgt : Nat) (l : Label) (w : ℚ) :
    (((s.add_transition tgt l w).add_transition tgt l w).bucketOf l).length
        = (((s.add_transition tgt l w).bucketOf l)).length + 1 ∧
      ((s.add_transition tgt l w).bucketOf l).length = (s.bucketOf l).length + 1 := by
  constructor
  · rw [add_transition_bucket_self]
    simp
  · rw [add_transition_bucket_self]
    simp

/-- For claim C2: the lazy input-symbol index is NOT invalidated by
`add_transition`.  Concretely: build a state with an ('a',)-labeled
transition, force the `transitionsin` index, then add a ('b',)-labeled
transition; the index returned afterwards still has no entry for input
symbol "b", although the transition map does contain the ('b',) label. -/
theorem transitionsin_stale_after_add :
    alistGet (((State.stNew.add_transition 1 (Label.one ['a']) 0).transitionsin.1.add_transition
        2 (Label.one ['b']) 0).transitionsin.2) (['b'] : Symb) = none ∧
      alistGet (((State.stNew.add_transition 1 (Label.one ['a']) 0).transitionsin.1.add_transition
        2 (Label.one ['b']) 0).transitions) (Label.one ['b']) ≠ none := by
  decide

lemma alistGet_cons {α β : Type} [DecidableEq α] (q : α × β) (rest : List (α × β)) (k : α) :
    alistGet (q :: rest) k = if q.1 = k then some q.2 else alistGet rest k := by
  by_cases h : q.1 = k <;> simp [alistGet, List.find?, h]

lemma remove_keys_subset (targets : List Nat) (trans : List (Label × List Transition))
    {l : Label}
    (h : l ∈ (trans.filterMap (fun lb =>
        if (lb.2.filter (fun t => decide (t.targetstate ∉ targets))).isEmpty then none
        else some (lb.1, lb.2.filter (fun t => decide (t.targetstate ∉ targets))))).map (·.1)) :
    l ∈ trans.map (·.1) := by
  simp only [List.mem_map, List.mem_filterMap] at h
  obtain ⟨q, ⟨q0, hq0, hfq⟩, hql⟩ := h
  split at hfq
  · exact Option.noConfusion hfq
  · obtain rfl := Option.some.inj hfq
    exact List.mem_map.mpr ⟨q0, hq0, hql⟩

lemma remove_bucket_eq (targets : List Nat) :
    ∀ (trans : List (Label × List Transition)) (l : Label),
      ((trans.map (·.1)).Nodup) →
      (alistGet (trans.filterMap (fun lb =>
          if (lb.2.filter (fun t => decide (t.targetstate ∉ targets))).isEmpty then none
          else some (lb.1, lb.2.filter (fun t => decide (t.targetstate ∉ targets))))) l).getD []
        = ((alistGet trans l).getD []).filter (fun t => decide (t.targetstate ∉ targets)) := by
  intro trans
  induction trans with
  | nil => intro l _; simp [alistGet, List.find?]
  | cons p rest ih =>
    intro l hnd
    rw [List.map_cons] at hnd
    have hnd1 := List.nodup_cons.mp hnd
    by_cases hb : (p.2.filter (fun t => decide (t.targetstate ∉ targets))).isEmpty
    · rw [List.filterMap_cons_none (by rw [if_pos hb])]
      by_cases hpl : p.1 = l
      · subst hpl
        have hnone : alistGet (rest.filterMap (fun lb =>
            if (lb.2.filter (fun t => decide (t.targetstate ∉ targets))).isEmpty then none
            else some (lb.1, lb.2.filter (fun t => decide (t.targetstate ∉ targets))))) p.1
            = none := by
          apply alistGet_eq_none
          intro hc
          exact hnd1.1 (remove_keys_subset targets rest hc)
        rw [hnone, alistGet_cons, if_pos rfl]
        have hfe : p.2.filter (fun t => decide (t.targetstate ∉ targets)) = [] :=
          List.isEmpty_iff.mp hb
        simp only [Option.getD_none, Option.getD_some]
        exact hfe.symm
      · rw [alistGet_cons, if_neg hpl]
        exact ih l hnd1.2
    · rw [List.filterMap_cons_some (by rw [if_neg hb])]
      by_cases hpl : p.1 = l
      · subst hpl
        rw [alistGet_cons, if_pos rfl, alistGet_cons, if_pos rfl]
        simp only [Option.getD_some]
      · rw [alistGet_cons, if_neg hpl, alistGet_cons, if_neg hpl]
        exact ih l hnd1.2

/-- For claim C7: `remove_transitions_to_targets` keeps exactly the
transitions whose target is outside `targets` (label by label), and never
leaves a label mapped to an empty transition set.  The hypothesis is the
Python `dict` invariant that label keys are unique. -/
theorem remove_transitions_to_targets_spec (s : State) (targets : List Nat)
    (hnd : (s.transitions.map (·.1)).Nodup) :
    (∀ lb ∈ (s.remove_transitions_to_targets targets).transitions, lb.2 ≠ []) ∧
      (∀ l : Label, (s.remove_transitions_to_targets targets).bucketOf l
        = (s.bucketOf l).filter (fun t => decide (t.targetstate ∉ targets))) := by
  constructor
  · intro lb hlb
    unfold State.remove_transitions_to_targets at hlb
    simp only [List.mem_filterMap] at hlb
    obtain ⟨lb0, _, hf⟩ := hlb
    split at hf
    · exact Option.noConfusion hf
    · next hb =>
      obtain rfl := Option.some.inj hf
      intro hc
      dsimp only at hc
      rw [hc] at hb
      exact hb rfl
  · intro l
    unfold State.remove_transitions_to_targets State.bucketOf
    exact remove_bucket_eq targets s.transitions l hnd

/-- Witness for `remove_transitions_to_targets_spec` at a concrete state. -/
theorem remove_transitions_to_targets_spec_witness :
    (∀ lb ∈ ((State.stNew.add_transition 1 (Label.one ['a']) 0).remove_transitions_to_targets
        [1]).transitions, lb.2 ≠ []) ∧
      (∀ l : Label, ((State.stNew.add_transition 1 (Label.one ['a']) 0).remove_transitions_to_targets
        [1]).bucketOf l
        = (((State.stNew.add_transition 1 (Label.one ['a']) 0)).bucketOf l).filter
            (fun t => decide (t.targetstate ∉ [1]))) :=
  remove_transitions_to_targets_spec (State.stNew.add_transition 1 (Label.one ['a']) 0) [1]
    (by decide)

/-- For claim C10: the invariant "every transition stored under a label key
carries that label" holds after `add_transition` and is preserved by
`remove_transitions_to_targets` and by `rename_label` (which reassigns each
moved transition's `label` field to the new label before merging). -/
theorem labelsConsistent_preserved (s : State) (h : s.labelsConsistent) :
    (∀ (tgt : Nat) (l : Label) (w : ℚ), (s.add_transition tgt l w).labelsConsistent) ∧
      (∀ targets : List Nat, (s.remove_transitions_to_targets targets).labelsConsistent) ∧
      (∀ (original new : Label) (s2 : State),
        s.rename_label original new = some s2 → s2.labelsConsistent) := by
  refine ⟨?_, ?_, ?_⟩
  · intro tgt l w lb hlb t ht
    unfold State.add_transition at hlb
    rcases mem_alistSet hlb with h1 | h1
    · exact h lb h1 t ht
    · subst h1
      rcases mem_tsetUnion ht with h2 | h2
      · rcases hg : alistGet s.transitions l with _ | b
        · rw [hg] at h2; simp at h2
        · rw [hg] at h2
          exact h (l, b) (alistGet_mem hg) t (by simpa using h2)
      · have : t = ⟨tgt, l, w, s.freshOid⟩ := by simpa using h2
        rw [this]
  · intro targets lb hlb t ht
    unfold State.remove_transitions_to_targets at hlb
    simp only [List.mem_filterMap] at hlb
    obtain ⟨lb0, hlb0, hf⟩ := hlb
    split at hf
    · exact Option.noConfusion hf
    · obtain rfl := Option.some.inj hf
      dsimp only at ht
      exact h lb0 hlb0 t (List.mem_of_mem_filter ht)
  · intro original new s2 hs2 lb hlb t ht
    unfold State.rename_label at hs2
    rcases hg : alistGet s.transitions original with _ | bucket
    · rw [hg] at hs2; exact Option.noConfusion hs2
    · rw [hg] at hs2
      obtain rfl := Option.some.inj hs2
      simp only at hlb ht
      have hlb2 := mem_alistPop hlb
      rcases mem_alistSet hlb2 with h1 | h1
      · exact h lb h1 t ht
      · subst h1
        simp only at ht
        rcases mem_tsetUnion ht with h2 | h2
        · rcases hg2 : alistGet s.transitions new with _ | b2
          · rw [hg2] at h2; simp at h2
          · rw [hg2] at h2
            exact h (new, b2) (alistGet_mem hg2) t (by simpa using h2)
        · obtain ⟨t0, _, rfl⟩ := List.mem_map.mp h2
          rfl

/-- Witness for `labelsConsistent_preserved` at a concrete state. -/
theorem labelsConsistent_preserved_witness :
    ((State.stNew.add_transition 7 (Label.two ['a'] ['b']) 2).add_transition
        5 (Label.one ['c']) 1).labelsConsistent :=
  (labelsConsistent_preserved (State.stNew.add_transition 7 (Label.two ['a'] ['b']) 2)
    (by intro lb hlb t ht; fin_cases hlb <;> fin_cases ht <;> rfl)).1 5 (Label.one ['c']) 1

/-- Inner loop of `FST.tokenize_against_alphabet`: starting from the default
single-character token, scan candidate lengths 1..len(remaining) in ascending
order and keep the last (hence longest) prefix found in the alphabet
(`for length in range(1, len(word) - start + 1): if word[start:start+length]
in self.alphabet: t = ...`). -/
def chooseTok (alph : List Symb) (c : Char) (rest : List Char) : Symb :=
  (List.range' 1 (rest.length + 1)).foldl
    (fun t len => if (c :: rest).take len ∈ alph then (c :: rest).take len else t) [c]

lemma foldl_choose_shape (alph : List Symb) (c : Char) (rest : List Char) :
    ∀ (lens : List Nat) (t0 : Symb),
      (lens.foldl
        (fun t len => if (c :: rest).take len ∈ alph then (c :: rest).take len else t) t0) = t0
      ∨ ∃ l ∈ lens,
        (lens.foldl
          (fun t len => if (c :: rest).take len ∈ alph then (c :: rest).take len else t) t0)
          = (c :: rest).take l := by
  intro lens
  induction lens with
  | nil => intro t0; exact Or.inl rfl
  | cons a as ih =>
    intro t0
    simp only [List.foldl_cons]
    by_cases ha : (c :: rest).take a ∈ alph
    · rw [if_pos ha]
      rcases ih ((c :: rest).take a) with h1 | ⟨l, hl, h1⟩
      · exact Or.inr ⟨a, List.mem_cons_self _ _, h1⟩
      · exact Or.inr ⟨l, List.mem_cons_of_mem _ hl, h1⟩
    · rw [if_neg ha]
      rcases ih t0 with h1 | ⟨l, hl, h1⟩
      · exact Or.inl h1
      · exact Or.inr ⟨l, List.mem_cons_of_mem _ hl, h1⟩

lemma chooseTok_shape (alph : List Symb) (c : Char) (rest : List Char) :
    chooseTok alph c rest = [c]
      ∨ ∃ l, 1 ≤ l ∧ chooseTok alph c rest = (c :: rest).take l := by
  rcases foldl_choose_shape alph c rest (List.range' 1 (rest.length + 1)) [c] with h | ⟨l, hl, h⟩
  · exact Or.inl h
  · have : 1 ≤ l := by
      have := List.mem_range'_1.mp hl
      exact this.1
    exact Or.inr ⟨l, this, h⟩

lemma chooseTok_length_pos (alph : List Symb) (c : Char) (rest : List Char) :
    1 ≤ (chooseTok alph c rest).length := by
  rcases chooseTok_shape alph c rest with h | ⟨l, hl, h⟩
  · simp [h]
  · rw [h]
    simp only [List.length_take, List.length_cons]
    omega

lemma chooseTok_take_self (alph : List Symb) (c : Char) (rest : List Char) :
    chooseTok alph c rest = (c :: rest).take (chooseTok alph c rest).length := by
  rcases chooseTok_shape alph c rest with h | ⟨l, hl, h⟩
  · rw [h]; rfl
  · rw [h, List.length_take]
    rcases Nat.le_total l (c :: rest).length with hle | hge
    · rw [min_eq_left hle]
    · rw [min_eq_right hge]
      rw [List.take_of_length_le hge, List.take_length]

/-- `FST.tokenize_against_alphabet(self, word)`: repeatedly emit the token
chosen by the inner loop at the current position and advance past it
(`start += len(t)`).  Each iteration consumes at least one character
(`chooseTok_length_pos`), so `word.length` iterations always suffice; the
explicit iteration bound makes the recursion structural so that the kernel
can evaluate the function on concrete inputs. -/
def tokenizeLoop (alph : List Symb) : Nat → List Char → List Symb
  | _, [] => []
  | 0, _ :: _ => []
  | fuel + 1, c :: rest =>
    chooseTok alph c rest
      :: tokenizeLoop alph fuel ((c :: rest).drop (chooseTok alph c rest).length)

/-- `FST.tokenize_against_alphabet(self, word)`. -/
def tokenizeAgainstAlphabet (alph : List Symb) (w : List Char) : List Symb :=
  tokenizeLoop alph w.length w

/-- Written from the spec's words (section 4.3): at each position choose the
LONGEST alphabet symbol matching there; if none matches, fall back to the
single next input character. -/
def specLongestTok (alph : List Symb) (c : Char) (rest : List Char) : Symb :=
  if Nat.findGreatest (fun l => (c :: rest).take l ∈ alph) (rest.length + 1) = 0 then [c]
  else (c :: rest).take (Nat.findGreatest (fun l => (c :: rest).take l ∈ alph) (rest.length + 1))

lemma specLongestTok_length_pos (alph : List Symb) (c : Char) (rest : List Char) :
    1 ≤ (specLongestTok alph c rest).length := by
  unfold specLongestTok
  split
  · simp
  · next hne =>
    rw [List.length_take]
    exact le_min (Nat.one_le_iff_ne_zero.mpr hne) (by simp)

/-- Written from the spec's words: maximal-munch tokenization of the whole
word, left to right. -/
def specTokenize (alph : List Symb) : List Char → List Symb
  | [] => []
  | c :: rest =>
    specLongestTok alph c rest
      :: specTokenize alph ((c :: rest).drop (specLongestTok alph c rest).length)
termination_by w => w.length
decreasing_by
  simp only [List.length_drop, List.length_cons]
  have := specLongestTok_length_pos alph c rest
  omega

lemma range'_concat_one : ∀ (s n : Nat), List.range' s (n + 1) = List.range' s n ++ [s + n] := by
  intro s n
  induction n generalizing s with
  | zero => simp [List.range']
  | succ m ih =>
    rw [List.range'_succ, ih (s + 1), List.range'_succ]
    simp only [List.cons_append]
    congr 3
    omega

lemma chooseTok_eq_specLongestTok (alph : List Symb) (c : Char) (rest : List Char) :
    chooseTok alph c rest = specLongestTok alph c rest := by
  unfold chooseTok specLongestTok
  have key : ∀ n : Nat,
      (List.range' 1 n).foldl
        (fun t len => if (c :: rest).take len ∈ alph then (c :: rest).take len else t) [c]
        = (if Nat.findGreatest (fun l => (c :: rest).take l ∈ alph) n = 0 then [c]
           else (c :: rest).take (Nat.findGreatest (fun l => (c :: rest).take l ∈ alph) n)) := by
    intro n
    induction n with
    | zero => simp [List.range']
    | succ m ih =>
      rw [range'_concat_one, List.foldl_append]
      simp only [List.foldl_cons, List.foldl_nil, Nat.findGreatest_succ]
      rw [show 1 + m = m + 1 from Nat.add_comm 1 m]
      by_cases hm : (c :: rest).take (m + 1) ∈ alph
      · simp only [hm, if_true]
        rw [if_neg (by omega)]
      · simp only [hm, if_false]
        exact ih
  exact key (rest.length + 1)

/-- For claim C5: `tokenize_against_alphabet` performs greedy left-to-right
maximal-munch tokenization — at every position it emits the longest alphabet
symbol matching there, falling back to the single next character when no
alphabet symbol matches — and in particular, with alphabet
{"ab","a","b"}, the input "ab" tokenizes to ["ab"], not ["a","b"]. -/
theorem tokenize_against_alphabet_longest_match :
    (∀ (alph : List Symb) (w : List Char),
        tokenizeAgainstAlphabet alph w = specTokenize alph w) ∧
      tokenizeAgainstAlphabet [['a', 'b'], ['a'], ['b']] ['a', 'b'] = [['a', 'b']] := by
  constructor
  · intro alph w
    have key : ∀ (fuel : Nat) (w : List Char), w.length ≤ fuel →
        tokenizeLoop alph fuel w = specTokenize alph w := by
      intro fuel
      induction fuel with
      | zero =>
        intro w hw
        have : w = [] := List.length_eq_zero.mp (Nat.le_zero.mp hw)
        subst this
        simp only [tokenizeLoop, specTokenize]
      | succ m ih =>
        intro w hw
        match w with
        | [] => simp only [tokenizeLoop, specTokenize]
        | c :: rest =>
          rw [show tokenizeLoop alph (m + 1) (c :: rest)
              = chooseTok alph c rest
                :: tokenizeLoop alph m ((c :: rest).drop (chooseTok alph c rest).length)
              from rfl]
          rw [specTokenize, chooseTok_eq_specLongestTok]
          congr 1
          apply ih
          simp only [List.length_drop, List.length_cons]
          have h1 := specLongestTok_length_pos alph c rest
          simp only [List.length_cons] at hw
          omega
    exact key w.length w le_rfl
  · decide

/-- The aggregate FST: alphabet, initial state id, id-indexed state set,
final-state set (`fst.py`, `FST.__init__` fields). -/
structure FST where
  alphabet : List Symb
  initialstate : Nat
  states : List (Nat × State)
  finalstates : List Nat
deriving DecidableEq, Repr

/-- Dereference a state id (state objects are shared by reference in the
source; ids play that role here).  A dangling id yields a fresh empty state;
well-formed automata never contain dangling ids. -/
def FST.getState (f : FST) (sid : Nat) : State :=
  (alistGet f.states sid).getD State.stNew

/-- Modelled from the spec (section 4.4): the flag-diacritic collaborator
(`FlagOp.is_flag`, `FlagStringFilter`) lives in the external `pyfoma.flag`
module, which is not part of the sources under verification.  The traversal
consumes exactly two capabilities: a membership test "is this symbol a flag
diacritic", and a predicate on an accumulated output sequence reporting
whether the flag diacritics seen so far are mutually consistent. -/
structure FlagIface where
  is_flag : Symb → Bool
  fsf : List Symb → Bool

/-- Modelled from the spec (section 4.4): `FlagOp.filter_flags`, the pure
filter that strips flag-diacritic symbols from a finished output sequence. -/
def filterFlags (ifc : FlagIface) (out : List Symb) : List Symb :=
  out.filter (fun s => !ifc.is_flag s)

/-- A trivial flag interface with no flag diacritics (as for any alphabet
containing none): the consistency predicate accepts everything. -/
def noFlags : FlagIface := ⟨fun _ => false, fun _ => true⟩

/-- `FST.__init__(self, label, weight, alphabet)`: a single initial state;
with a label `('',)` the initial state is made final with the given weight;
with any other label a second (final) state is created, reachable by one
transition carrying the label at weight 0, and the alphabet becomes the set
of the label's symbols. -/
def FST.fstInit (label : Option Label) (weight : ℚ) (alphabet : List Symb) : FST :=
  if label = some (Label.one []) then
    ⟨alphabet, 0, [(0, ⟨[], none, none, weight, none⟩)], [0]⟩
  else
    match label with
    | none => ⟨alphabet, 0, [(0, State.stNew)], []⟩
    | some l =>
      ⟨(match l with
        | .one s => [s]
        | .two i o => if i = o then [i] else [i, o]),
       0,
       [(0, State.stNew.add_transition 1 l 0),
        (1, ⟨[], none, none, weight, none⟩)],
       [1]⟩

/-- One partial path in the `apply` priority queue: the tuple
`(cost, negpos, next(cntr), output, state)` pushed on the heap, where
`state = none` embeds the `None` sentinel for finished paths. -/
structure Entry where
  cost : ℚ
  negpos : Int
  cntr : Nat
  output : List Symb
  state : Option Nat
deriving DecidableEq, Repr

/-- The heap order on queue entries: Python compares the pushed tuples
lexicographically, and the strictly increasing counter in the third position
guarantees the comparison never reaches the `output`/`state` components. -/
def Entry.keyLE (a b : Entry) : Prop :=
  a.cost < b.cost ∨ (a.cost = b.cost ∧
    (a.negpos < b.negpos ∨ (a.negpos = b.negpos ∧ a.cntr ≤ b.cntr)))

instance (a b : Entry) : Decidable (Entry.keyLE a b) := by
  unfold Entry.keyLE
  infer_instance

/-- `heapq.heappop`: remove and return the least entry of the queue (ties
are impossible since counters are unique). -/
def popMin : List Entry → Option (Entry × List Entry)
  | [] => none
  | e :: rest =>
    match popMin rest with
    | none => some (e, [])
    | some (m, rest2) =>
      if Entry.keyLE e m then some (e, rest) else some (m, e :: rest2)

/-- `state.all_transitions()`: all `(label, transition)` pairs of a state in
map order. -/
def State.allTransPairs (s : State) : List (Label × Transition) :=
  s.transitions.flatMap (fun lb => lb.2.map (fun t => (lb.1, t)))

/-- The input side of a label under `IN, OUT = [-1, 0] if inverse else [0, -1]`. -/
def labelIn (l : Label) (inverse : Bool) : Symb :=
  if inverse then l.last else l.first

/-- The output side of a label (see `labelIn`). -/
def labelOut (l : Label) (inverse : Bool) : Symb :=
  if inverse then l.first else l.last

/-- The wildcard symbol `'.'`. -/
def wildcard : Symb := ['.']

/-- `nextsym = w[-negpos] if w[-negpos] in self.alphabet else '.'`: the next
tokenized input symbol, rewritten to the wildcard when outside the
alphabet. -/
def nextsymOf (f : FST) (w : List Symb) (negpos : Int) : Symb :=
  if w.getD (-negpos).toNat [] ∈ f.alphabet then w.getD (-negpos).toNat [] else wildcard

/-- `appendedsym = w[-negpos] if (nextsym == '.' and lbl[OUT] == '.') else
lbl[OUT]`: the symbol appended to the output on a consuming match. -/
def appendedsymOf (f : FST) (w : List Symb) (negpos : Int) (lout : Symb) : Symb :=
  if nextsymOf f w negpos = wildcard ∧ lout = wildcard then w.getD (-negpos).toNat []
  else lout

/-- The transition loop of `FST.apply` at one popped entry: for each
outgoing `(lbl, t)`, push an epsilon/flag successor (input side empty or a
flag diacritic: advance without consuming), or, if input remains, match the
next tokenized symbol (unknown tokens become the wildcard) and push a
consuming successor.  Returns the pushed entries (in push order, with their
counters) and the next counter value. -/
def transPushes (f : FST) (ifc : FlagIface) (inverse : Bool) (w : List Symb)
    (e : Entry) : List (Label × Transition) → Nat → List Entry × Nat
  | [], c => ([], c)
  | (lbl, t) :: rest, c =>
    if labelIn lbl inverse = [] ∨ ifc.is_flag (labelIn lbl inverse) then
      ((⟨e.cost + t.weight, e.negpos, c,
          e.output ++ [labelOut lbl inverse], some t.targetstate⟩ : Entry)
        :: (transPushes f ifc inverse w e rest (c + 1)).1,
       (transPushes f ifc inverse w e rest (c + 1)).2)
    else if -e.negpos < (w.length : Int) then
      if nextsymOf f w e.negpos = labelIn lbl inverse then
        ((⟨e.cost + t.weight, e.negpos - 1, c,
            e.output ++ [appendedsymOf f w e.negpos (labelOut lbl inverse)],
            some t.targetstate⟩ : Entry)
          :: (transPushes f ifc inverse w e rest (c + 1)).1,
         (transPushes f ifc inverse w e rest (c + 1)).2)
      else transPushes f ifc inverse w e rest c
    else transPushes f ifc inverse w e rest c

/-- Expansion of one popped unfinished entry (`FST.apply`, `elif state !=
None` branch): if the current state is final, push a finished copy with the
final weight added, then run the transition loop. -/
def stepPushes (f : FST) (ifc : FlagIface) (inverse : Bool) (w : List Symb)
    (e : Entry) (sid : Nat) (c : Nat) : List Entry × Nat :=
  if sid ∈ f.finalstates then
    ((⟨e.cost + (f.getState sid).finalweight, e.negpos, c, e.output, none⟩ : Entry)
      :: (transPushes f ifc inverse w e (f.getState sid).allTransPairs (c + 1)).1,
     (transPushes f ifc inverse w e (f.getState sid).allTransPairs (c + 1)).2)
  else transPushes f ifc inverse w e (f.getState sid).allTransPairs c

/-- The `while Q:` loop of `FST.apply`, run for at most `fuel` pops.
Returns the popped entries in pop order and the yielded `(output, cost)`
results in yield order.  A finished entry yields when the whole tokenized
input has been consumed and (when `obey` is set) the flag filter accepts the
output; flags are stripped from the yielded output unless `pf`
(`print_flags`) is set. -/
def applyRun (f : FST) (ifc : FlagIface) (inverse obey pf : Bool) (w : List Symb) :
    Nat → List Entry → Nat → List Entry × List (List Symb × ℚ)
  | 0, _, _ => ([], [])
  | fuel + 1, q, c =>
    match popMin q with
    | none => ([], [])
    | some (e, q2) =>
      match e.state with
      | none =>
        let r := applyRun f ifc inverse obey pf w fuel q2 c
        if -e.negpos = (w.length : Int) ∧ (obey = false ∨ ifc.fsf e.output = true) then
          let out := if pf then e.output else filterFlags ifc e.output
          (e :: r.1, (out, e.cost) :: r.2)
        else (e :: r.1, r.2)
      | some sid =>
        let ps := stepPushes f ifc inverse w e sid c
        let r := applyRun f ifc inverse obey pf w fuel (q2 ++ ps.1) ps.2
        (e :: r.1, r.2)

/-- `FST.apply(word, ...)`: tokenize the word against the automaton's
alphabet, seed the queue with `(0.0, 0, 0, [], initialstate)` and run the
search; the popped-entry trace of the first `fuel` pops. -/
def applyTrace (f : FST) (ifc : FlagIface) (inverse obey pf : Bool)
    (word : List Char) (fuel : Nat) : List Entry :=
  (applyRun f ifc inverse obey pf (tokenizeAgainstAlphabet f.alphabet word) fuel
    [⟨0, 0, 0, [], some f.initialstate⟩] 1).1

/-- `FST.apply(word, ...)`: the `(output, cost)` results yielded within the
first `fuel` pops, in yield order.  `FST.generate` is `apply` with
`inverse = false`, `FST.analyze` is `apply` with `inverse = true`. -/
def applyYields (f : FST) (ifc : FlagIface) (inverse obey pf : Bool)
    (word : List Char) (fuel : Nat) : List (List Symb × ℚ) :=
  (applyRun f ifc inverse obey pf (tokenizeAgainstAlphabet f.alphabet word) fuel
    [⟨0, 0, 0, [], some f.initialstate⟩] 1).2

/-- An automaton with a negative final weight: initial state 0 is final at
weight 5 and has an epsilon transition of weight 10 to state 1, which is
final at weight -8. -/
def negWeightFst : FST :=
  ⟨[], 0,
   [(0, ⟨[(Label.one [], [⟨1, Label.one [], 10, 0⟩])], none, none, 5, none⟩),
    (1, ⟨[], none, none, -8, none⟩)],
   [0, 1]⟩

/-- For claim C1 (counterexample): with a negative weight in the automaton,
`generate("")` yields its two results at costs 5 then 2 — NOT in
non-decreasing cost order, so the claim quantified over every FST fails. -/
theorem apply_yields_not_sorted_cex :
    (applyYields negWeightFst noFlags false true false [] 4).map Prod.snd = [5, 2] ∧
      ¬ List.Sorted (· ≤ ·) ((applyYields negWeightFst noFlags false true false [] 4).map
        Prod.snd) := by
  have he : (applyYields negWeightFst noFlags false true false [] 4).map Prod.snd
      = [(5 : ℚ), 2] := by with_unfolding_all decide
  refine ⟨he, ?_⟩
  intro h
  rw [he] at h
  have h2 := (List.sorted_cons.mp h).1 2 (by simp)
  norm_num at h2

/-- An automaton whose initial state has an epsilon transition (inserted
first) and an 'a'-consuming transition (inserted second). -/
def posKeyFst : FST :=
  ⟨[['a']], 0,
   [(0, ⟨[(Label.one [], [⟨1, Label.one [], 0, 0⟩]),
          (Label.one ['a'], [⟨2, Label.one ['a'], 0, 1⟩])], none, none, 0, none⟩),
    (1, State.stNew), (2, State.stNew)],
   []⟩

/-- For claim C4 (counterexample): the queue is NOT keyed by (cost,
insertion number) — the negated input position sits between them.  On
`posKeyFst` with input "a", the entry with counter 2 (inserted later, one
symbol consumed) is popped before the equal-cost entry with counter 1
(inserted earlier, nothing consumed): (cost, cntr) in pop order is
(0,0), (0,2), (0,1). -/
theorem apply_pop_order_not_fifo_cex :
    (applyTrace posKeyFst noFlags false true false ['a'] 3).map (fun e => (e.cost, e.cntr))
        = [(0, 0), (0, 2), (0, 1)] ∧
      ¬ List.Pairwise (fun a b : Entry => a.cost = b.cost → a.cntr < b.cntr)
        (applyTrace posKeyFst noFlags false true false ['a'] 3) := by
  have he : applyTrace posKeyFst noFlags false true false ['a'] 3
      = [⟨0, 0, 0, [], some 0⟩, ⟨0, -1, 2, [['a']], some 2⟩, ⟨0, 0, 1, [[]], some 1⟩] := by
    with_unfolding_all decide
  constructor
  · rw [he]
    with_unfolding_all decide
  · intro h
    rw [he] at h
    rcases h with _ | ⟨_, h2⟩
    rcases h2 with _ | ⟨h3, _⟩
    exact absurd (h3 _ (List.mem_singleton.mpr rfl) rfl) (by decide)

/-- For claim C8 (counterexample): the two-state acceptor built from the
wildcard label `('.',)` does NOT reject every string other than "." —
`generate("a")` yields the result "a" at cost 0, because an input token
outside the alphabet is rewritten to the wildcard and matched by the
wildcard transition. -/
theorem single_label_acceptor_wildcard_cex :
    applyYields (FST.fstInit (some (Label.one ['.'])) 0 []) noFlags false true false
        ['a'] 4 = [([['a']], 0)] ∧ (['a'] : Symb) ≠ (['.'] : Symb) := by
  exact ⟨by with_unfolding_all decide, by decide⟩

lemma keyLE_refl (a : Entry) : a.keyLE a := by
  unfold Entry.keyLE
  right
  exact ⟨rfl, Or.inr ⟨rfl, le_rfl⟩⟩

lemma keyLE_total (a b : Entry) : a.keyLE b ∨ b.keyLE a := by
  unfold Entry.keyLE
  rcases lt_trichotomy a.cost b.cost with h | h | h
  · exact Or.inl (Or.inl h)
  · rcases lt_trichotomy a.negpos b.negpos with h2 | h2 | h2
    · exact Or.inl (Or.inr ⟨h, Or.inl h2⟩)
    · rcases Nat.le_total a.cntr b.cntr with h3 | h3
      · exact Or.inl (Or.inr ⟨h, Or.inr ⟨h2, h3⟩⟩)
      · exact Or.inr (Or.inr ⟨h.symm, Or.inr ⟨h2.symm, h3⟩⟩)
    · exact Or.inr (Or.inr ⟨h.symm, Or.inl h2⟩)
  · exact Or.inr (Or.inl h)

lemma keyLE_trans {a b c : Entry} (hab : a.keyLE b) (hbc : b.keyLE c) : a.keyLE c := by
  unfold Entry.keyLE at *
  rcases hab with h1 | ⟨h1, h1b⟩
  · rcases hbc with h2 | ⟨h2, _⟩
    · exact Or.inl (lt_trans h1 h2)
    · exact Or.inl (h2 ▸ h1)
  · rcases hbc with h2 | ⟨h2, h2b⟩
    · exact Or.inl (h1 ▸ h2)
    · refine Or.inr ⟨h1.trans h2, ?_⟩
      rcases h1b with h3 | ⟨h3, h3b⟩
      · rcases h2b with h4 | ⟨h4, _⟩
        · exact Or.inl (lt_trans h3 h4)
        · exact Or.inl (h4 ▸ h3)
      · rcases h2b with h4 | ⟨h4, h4b⟩
        · exact Or.inl (h3 ▸ h4)
        · exact Or.inr ⟨h3.trans h4, h3b.trans h4b⟩

lemma keyLE_cost_le {a b : Entry} (h : a.keyLE b) : a.cost ≤ b.cost := by
  rcases h with h | ⟨h, _⟩
  · exact le_of_lt h
  · exact le_of_eq h

lemma keyLE_cntr_le {a b : Entry} (h : a.keyLE b) (hc : a.cost = b.cost)
    (hn : a.negpos = b.negpos) : a.cntr ≤ b.cntr := by
  rcases h with h | ⟨_, h2⟩
  · exact absurd hc (ne_of_lt h)
  · rcases h2 with h3 | ⟨_, h4⟩
    · exact absurd hn (ne_of_lt h3)
    · exact h4

lemma popMin_nil_of_none : ∀ {q : List Entry}, popMin q = none → q = [] := by
  intro q h
  cases q with
  | nil => rfl
  | cons e rest =>
    rw [popMin] at h
    rcases hr : popMin rest with _ | ⟨m0, rest2⟩
    · rw [hr] at h; dsimp only at h; exact Option.noConfusion h
    · rw [hr] at h
      dsimp only at h
      by_cases hk : Entry.keyLE e m0
      · rw [if_pos hk] at h; exact Option.noConfusion h
      · rw [if_neg hk] at h; exact Option.noConfusion h

lemma popMin_mem : ∀ {q : List Entry} {m : Entry} {q2 : List Entry},
    popMin q = some (m, q2) → m ∈ q := by
  intro q
  induction q with
  | nil => intro m q2 h; simp [popMin] at h
  | cons e rest ih =>
    intro m q2 h
    rw [popMin] at h
    rcases hr : popMin rest with _ | ⟨m0, rest2⟩
    · rw [hr] at h
      dsimp only at h
      injection (Option.some.inj h) with h1 h2
      exact h1 ▸ List.mem_cons_self _ _
    · rw [hr] at h
      dsimp only at h
      by_cases hk : Entry.keyLE e m0
      · rw [if_pos hk] at h
        injection (Option.some.inj h) with h1 h2
        exact h1 ▸ List.mem_cons_self _ _
      · rw [if_neg hk] at h
        injection (Option.some.inj h) with h1 h2
        exact h1 ▸ List.mem_cons_of_mem _ (ih hr)

lemma popMin_sublist : ∀ {q : List Entry} {m : Entry} {q2 : List Entry},
    popMin q = some (m, q2) → List.Sublist q2 q := by
  intro q
  induction q with
  | nil => intro m q2 h; simp [popMin] at h
  | cons e rest ih =>
    intro m q2 h
    rw [popMin] at h
    rcases hr : popMin rest with _ | ⟨m0, rest2⟩
    · rw [hr] at h
      dsimp only at h
      injection (Option.some.inj h) with h1 h2
      exact h2 ▸ List.nil_sublist _
    · rw [hr] at h
      dsimp only at h
      by_cases hk : Entry.keyLE e m0
      · rw [if_pos hk] at h
        injection (Option.some.inj h) with h1 h2
        exact h2 ▸ List.sublist_cons_self _ _
      · rw [if_neg hk] at h
        injection (Option.some.inj h) with h1 h2
        exact h2 ▸ List.Sublist.cons₂ _ (ih hr)

lemma popMin_min : ∀ {q : List Entry} {m : Entry} {q2 : List Entry},
    popMin q = some (m, q2) → ∀ b ∈ q, m.keyLE b := by
  intro q
  induction q with
  | nil => intro m q2 h; simp [popMin] at h
  | cons e rest ih =>
    intro m q2 h b hb
    rw [popMin] at h
    rcases hr : popMin rest with _ | ⟨m0, rest2⟩
    · rw [hr] at h
      dsimp only at h
      injection (Option.some.inj h) with h1 h2
      subst h1
      have : rest = [] := popMin_nil_of_none hr
      subst this
      rcases List.mem_singleton.mp hb with rfl
      exact keyLE_refl b
    · rw [hr] at h
      dsimp only at h
      by_cases hk : Entry.keyLE e m0
      · rw [if_pos hk] at h
        injection (Option.some.inj h) with h1 h2
        subst h1
        rcases List.mem_cons.mp hb with rfl | hb2
        · exact keyLE_refl b
        · exact keyLE_trans hk (ih hr b hb2)
      · rw [if_neg hk] at h
        injection (Option.some.inj h) with h1 h2
        subst h1
        rcases List.mem_cons.mp hb with rfl | hb2
        · rcases keyLE_total b m0 with h2 | h2
          · exact absurd h2 hk
          · exact h2
        · exact ih hr b hb2

lemma popMin_cntr_ne : ∀ {q : List Entry} {m : Entry} {q2 : List Entry},
    popMin q = some (m, q2) → (q.map (·.cntr)).Nodup → ∀ b ∈ q2, b.cntr ≠ m.cntr := by
  intro q
  induction q with
  | nil => intro m q2 h; simp [popMin] at h
  | cons e rest ih =>
    intro m q2 h hnd b hb
    rw [List.map_cons] at hnd
    have hnd1 := List.nodup_cons.mp hnd
    rw [popMin] at h
    rcases hr : popMin rest with _ | ⟨m0, rest2⟩
    · rw [hr] at h
      dsimp only at h
      injection (Option.some.inj h) with h1 h2
      subst h2
      simp at hb
    · rw [hr] at h
      dsimp only at h
      by_cases hk : Entry.keyLE e m0
      · rw [if_pos hk] at h
        injection (Option.some.inj h) with h1 h2
        subst h1
        subst h2
        intro hc
        exact hnd1.1 (hc ▸ List.mem_map_of_mem (·.cntr) hb)
      · rw [if_neg hk] at h
        injection (Option.some.inj h) with h1 h2
        subst h1
        subst h2
        rcases List.mem_cons.mp hb with rfl | hb2
        · intro hc
          exact hnd1.1 (hc ▸ List.mem_map_of_mem (·.cntr) (popMin_mem hr))
        · exact ih hr hnd1.2 b hb2

/-- All transition weights of the automaton are nonnegative (the spec's
"non-negative-by-convention" weight convention). -/
def FST.nonnegWeights (f : FST) : Prop :=
  ∀ p ∈ f.states, ∀ lb ∈ p.2.transitions, ∀ t ∈ lb.2, 0 ≤ t.weight

/-- All final weights of final states are nonnegative. -/
def FST.nonnegFinals (f : FST) : Prop :=
  ∀ sid ∈ f.finalstates, 0 ≤ (f.getState sid).finalweight

lemma getState_trans_weight_nonneg {f : FST} (hw : f.nonnegWeights) (sid : Nat) :
    ∀ pr ∈ (f.getState sid).allTransPairs, 0 ≤ pr.2.weight := by
  intro pr hpr
  unfold FST.getState at hpr
  rcases hg : alistGet f.states sid with _ | st
  · rw [hg] at hpr
    simp [State.stNew, State.allTransPairs] at hpr
  · rw [hg] at hpr
    simp only [Option.getD_some] at hpr
    unfold State.allTransPairs at hpr
    simp only [List.mem_flatMap, List.mem_map] at hpr
    obtain ⟨lb, hlb, t, ht, rfl⟩ := hpr
    exact hw (sid, st) (alistGet_mem hg) lb hlb t ht

lemma transPushes_cost {f : FST} {ifc : FlagIface} {inv : Bool} {w : List Symb} {e : Entry} :
    ∀ (trs : List (Label × Transition)) (c : Nat),
      (∀ pr ∈ trs, 0 ≤ pr.2.weight) →
      ∀ p ∈ (transPushes f ifc inv w e trs c).1, e.cost ≤ p.cost := by
  intro trs
  induction trs with
  | nil => intro c _ p hp; simp [transPushes] at hp
  | cons pr rest ih =>
    intro c hw p hp
    obtain ⟨lbl, t⟩ := pr
    have hwt : (0 : ℚ) ≤ t.weight := hw (lbl, t) (List.mem_cons_self _ _)
    have hwr : ∀ pr2 ∈ rest, (0 : ℚ) ≤ pr2.2.weight :=
      fun pr2 h2 => hw pr2 (List.mem_cons_of_mem _ h2)
    rw [transPushes] at hp
    split_ifs at hp with h1 h2 h3
    · rcases List.mem_cons.mp hp with rfl | hp2
      · show e.cost ≤ e.cost + t.weight
        exact le_add_of_nonneg_right hwt
      · exact ih (c + 1) hwr p hp2
    · rcases List.mem_cons.mp hp with rfl | hp2
      · show e.cost ≤ e.cost + t.weight
        exact le_add_of_nonneg_right hwt
      · exact ih (c + 1) hwr p hp2
    · exact ih c hwr p hp
    · exact ih c hwr p hp

lemma transPushes_cntr {f : FST} {ifc : FlagIface} {inv : Bool} {w : List Symb} {e : Entry} :
    ∀ (trs : List (Label × Transition)) (c : Nat),
      c ≤ (transPushes f ifc inv w e trs c).2 ∧
        (∀ p ∈ (transPushes f ifc inv w e trs c).1,
          c ≤ p.cntr ∧ p.cntr < (transPushes f ifc inv w e trs c).2) ∧
        List.Pairwise (fun a b : Entry => a.cntr < b.cntr)
          (transPushes f ifc inv w e trs c).1 := by
  intro trs
  induction trs with
  | nil =>
    intro c
    refine ⟨le_rfl, ?_, ?_⟩
    · intro p hp; simp [transPushes] at hp
    · simp [transPushes]
  | cons pr rest ih =>
    intro c
    obtain ⟨lbl, t⟩ := pr
    rw [transPushes]
    split_ifs with h1 h2 h3
    · obtain ⟨iha, ihb, ihc⟩ := ih (c + 1)
      refine ⟨by omega, ?_, ?_⟩
      · intro p hp
        rcases List.mem_cons.mp hp with rfl | hp2
        · refine ⟨le_rfl, ?_⟩
          show c < (transPushes f ifc inv w e rest (c + 1)).2
          omega
        · have := ihb p hp2
          exact ⟨by omega, this.2⟩
      · refine List.pairwise_cons.mpr ⟨?_, ihc⟩
        intro b hb
        have := (ihb b hb).1
        show c < b.cntr
        omega
    · obtain ⟨iha, ihb, ihc⟩ := ih (c + 1)
      refine ⟨by omega, ?_, ?_⟩
      · intro p hp
        rcases List.mem_cons.mp hp with rfl | hp2
        · refine ⟨le_rfl, ?_⟩
          show c < (transPushes f ifc inv w e rest (c + 1)).2
          omega
        · have := ihb p hp2
          exact ⟨by omega, this.2⟩
      · refine List.pairwise_cons.mpr ⟨?_, ihc⟩
        intro b hb
        have := (ihb b hb).1
        show c < b.cntr
        omega
    · exact ih c
    · exact ih c

lemma stepPushes_cost {f : FST} {ifc : FlagIface} {inv : Bool} {w : List Symb}
    (hw : f.nonnegWeights) (hf : f.nonnegFinals) (e : Entry) (sid : Nat) (c : Nat) :
    ∀ p ∈ (stepPushes f ifc inv w e sid c).1, e.cost ≤ p.cost := by
  intro p hp
  unfold stepPushes at hp
  by_cases hfin : sid ∈ f.finalstates
  · rw [if_pos hfin] at hp
    rcases List.mem_cons.mp hp with rfl | hp2
    · show e.cost ≤ e.cost + (f.getState sid).finalweight
      exact le_add_of_nonneg_right (hf sid hfin)
    · exact transPushes_cost _ _ (getState_trans_weight_nonneg hw sid) p hp2
  · rw [if_neg hfin] at hp
    exact transPushes_cost _ _ (getState_trans_weight_nonneg hw sid) p hp

lemma stepPushes_cntr {f : FST} {ifc : FlagIface} {inv : Bool} {w : List Symb}
    (e : Entry) (sid : Nat) (c : Nat) :
    c ≤ (stepPushes f ifc inv w e sid c).2 ∧
      (∀ p ∈ (stepPushes f ifc inv w e sid c).1,
        c ≤ p.cntr ∧ p.cntr < (stepPushes f ifc inv w e sid c).2) ∧
      List.Pairwise (fun a b : Entry => a.cntr < b.cntr) (stepPushes f ifc inv w e sid c).1 := by
  unfold stepPushes
  by_cases hfin : sid ∈ f.finalstates
  · rw [if_pos hfin]
    obtain ⟨iha, ihb, ihc⟩ := @transPushes_cntr f ifc inv w e
      (f.getState sid).allTransPairs (c + 1)
    refine ⟨by omega, ?_, ?_⟩
    · intro p hp
      rcases List.mem_cons.mp hp with rfl | hp2
      · refine ⟨le_rfl, ?_⟩
        show c < (transPushes f ifc inv w e (f.getState sid).allTransPairs (c + 1)).2
        omega
      · have := ihb p hp2
        exact ⟨by omega, this.2⟩
    · refine List.pairwise_cons.mpr ⟨?_, ihc⟩
      intro b hb
      have := (ihb b hb).1
      show c < b.cntr
      omega
  · rw [if_neg hfin]
    exact @transPushes_cntr f ifc inv w e (f.getState sid).allTransPairs c

lemma applyRun_yields_bound (f : FST) (ifc : FlagIface) (inv obey pf : Bool) (w : List Symb)
    (hw : f.nonnegWeights) (hf : f.nonnegFinals) :
    ∀ (fuel : Nat) (q : List Entry) (c : Nat) (c0 : ℚ), (∀ e ∈ q, c0 ≤ e.cost) →
      (∀ y ∈ (applyRun f ifc inv obey pf w fuel q c).2, c0 ≤ y.2) ∧
        List.Sorted (· ≤ ·) ((applyRun f ifc inv obey pf w fuel q c).2.map Prod.snd) := by
  intro fuel
  induction fuel with
  | zero =>
    intro q c c0 hq
    refine ⟨?_, ?_⟩
    · intro y hy; simp [applyRun] at hy
    · simp [applyRun]
  | succ m ih =>
    intro q c c0 hq
    rcases hpop : popMin q with _ | ⟨e, q2⟩
    · rw [applyRun, hpop]
      refine ⟨?_, ?_⟩
      · intro y hy; simp at hy
      · simp
    · rw [applyRun, hpop]
      dsimp only
      have he : c0 ≤ e.cost := hq e (popMin_mem hpop)
      have hq2 : ∀ b ∈ q2, e.cost ≤ b.cost := fun b hb =>
        keyLE_cost_le (popMin_min hpop b ((popMin_sublist hpop).subset hb))
      rcases hstate : e.state with _ | sid
      · dsimp only
        by_cases hyield : -e.negpos = (w.length : Int) ∧ (obey = false ∨ ifc.fsf e.output = true)
        · rw [if_pos hyield]
          obtain ⟨iha, ihb⟩ := ih q2 c e.cost hq2
          refine ⟨?_, ?_⟩
          · intro y hy
            rcases List.mem_cons.mp hy with rfl | hy2
            · exact he
            · exact le_trans he (iha y hy2)
          · rw [List.map_cons]
            refine List.sorted_cons.mpr ⟨?_, ihb⟩
            intro z hz
            obtain ⟨y, hy, rfl⟩ := List.mem_map.mp hz
            exact iha y hy
        · rw [if_neg hyield]
          obtain ⟨iha, ihb⟩ := ih q2 c e.cost hq2
          exact ⟨fun y hy => le_trans he (iha y hy), ihb⟩
      · dsimp only
        obtain ⟨iha, ihb⟩ := ih (q2 ++ (stepPushes f ifc inv w e sid c).1)
          (stepPushes f ifc inv w e sid c).2 e.cost (by
            intro b hb
            rcases List.mem_append.mp hb with h1 | h1
            · exact hq2 b h1
            · exact stepPushes_cost hw hf e sid c b h1)
        exact ⟨fun y hy => le_trans he (iha y hy), ihb⟩

/-- For claim C1 (amended): for every automaton whose transition weights and
final weights are nonnegative, every word, every option setting and every
search budget, the results of `apply` (hence of `generate` and `analyze`)
come out in non-decreasing cost order: a cheaper accepting path is always
yielded before a costlier one. -/
theorem apply_yields_sorted (f : FST) (ifc : FlagIface) (inv obey pf : Bool)
    (word : List Char) (fuel : Nat) (hw : f.nonnegWeights) (hf : f.nonnegFinals) :
    List.Sorted (· ≤ ·) ((applyYields f ifc inv obey pf word fuel).map Prod.snd) := by
  unfold applyYields
  refine (applyRun_yields_bound f ifc inv obey pf
    (tokenizeAgainstAlphabet f.alphabet word) hw hf fuel
    [⟨0, 0, 0, [], some f.initialstate⟩] 1 0 ?_).2
  intro e he
  rcases List.mem_singleton.mp he with rfl
  exact le_rfl

/-- Witness for `apply_yields_sorted` on a concrete nonnegative automaton. -/
theorem apply_yields_sorted_witness :
    List.Sorted (· ≤ ·) ((applyYields (FST.fstInit (some (Label.one ['a'])) 0 [])
      noFlags false true false ['a'] 5).map Prod.snd) :=
  apply_yields_sorted (FST.fstInit (some (Label.one ['a'])) 0 []) noFlags false true false
    ['a'] 5 (by unfold FST.nonnegWeights; with_unfolding_all decide)
    (by unfold FST.nonnegFinals; with_unfolding_all decide)

lemma applyRun_trace_mem (f : FST) (ifc : FlagIface) (inv obey pf : Bool) (w : List Symb) :
    ∀ (fuel : Nat) (q : List Entry) (c : Nat),
      ∀ e2 ∈ (applyRun f ifc inv obey pf w fuel q c).1, e2 ∈ q ∨ c ≤ e2.cntr := by
  intro fuel
  induction fuel with
  | zero => intro q c e2 h2; simp [applyRun] at h2
  | succ m ih =>
    intro q c e2 h2
    rcases hpop : popMin q with _ | ⟨e, q2⟩
    · rw [applyRun, hpop] at h2
      simp at h2
    · rw [applyRun, hpop] at h2
      dsimp only at h2
      have hq2 : ∀ b, b ∈ q2 → b ∈ q := fun b hb => (popMin_sublist hpop).subset hb
      rcases hstate : e.state with _ | sid
    -- finished entry: the trace is e followed by the run on (q2, c)
      · rw [hstate] at h2
        dsimp only at h2
        by_cases hyield : -e.negpos = (w.length : Int) ∧ (obey = false ∨ ifc.fsf e.output = true)
        · rw [if_pos hyield] at h2
          rcases List.mem_cons.mp h2 with rfl | h3
          · exact Or.inl (popMin_mem hpop)
          · rcases ih q2 c e2 h3 with h4 | h4
            · exact Or.inl (hq2 e2 h4)
            · exact Or.inr h4
        · rw [if_neg hyield] at h2
          rcases List.mem_cons.mp h2 with rfl | h3
          · exact Or.inl (popMin_mem hpop)
          · rcases ih q2 c e2 h3 with h4 | h4
            · exact Or.inl (hq2 e2 h4)
            · exact Or.inr h4
      · rw [hstate] at h2
        dsimp only at h2
        rcases List.mem_cons.mp h2 with rfl | h3
        · exact Or.inl (popMin_mem hpop)
        · rcases ih (q2 ++ (stepPushes f ifc inv w e sid c).1)
            (stepPushes f ifc inv w e sid c).2 e2 h3 with h4 | h4
          · rcases List.mem_append.mp h4 with h5 | h5
            · exact Or.inl (hq2 e2 h5)
            · exact Or.inr ((stepPushes_cntr e sid c).2.1 e2 h5).1
          · have := (@stepPushes_cntr f ifc inv w e sid c).1
            exact Or.inr (le_trans this h4)

lemma applyRun_trace_fifo (f : FST) (ifc : FlagIface) (inv obey pf : Bool) (w : List Symb) :
    ∀ (fuel : Nat) (q : List Entry) (c : Nat),
      (∀ e ∈ q, e.cntr < c) → ((q.map (·.cntr)).Nodup) →
      List.Pairwise (fun a b : Entry => a.cost = b.cost ∧ a.negpos = b.negpos → a.cntr < b.cntr)
        (applyRun f ifc inv obey pf w fuel q c).1 := by
  intro fuel
  induction fuel with
  | zero => intro q c _ _; simp [applyRun]
  | succ m ih =>
    intro q c hlt hnd
    rcases hpop : popMin q with _ | ⟨e, q2⟩
    · rw [applyRun, hpop]
      simp
    · rw [applyRun, hpop]
      dsimp only
      have hmem := popMin_mem hpop
      have hsub := popMin_sublist hpop
      have hmin := popMin_min hpop
      have hne := popMin_cntr_ne hpop hnd
      have hecntr : e.cntr < c := hlt e hmem
      have hlt2 : ∀ b ∈ q2, b.cntr < c := fun b hb => hlt b (hsub.subset hb)
      have hnd2 : (q2.map (·.cntr)).Nodup := (hnd.sublist (hsub.map (·.cntr)))
      -- the head entry e relates to everything later in the trace
      have hhead : ∀ (q3 : List Entry) (c3 : Nat), (∀ b ∈ q3, b ∈ q2 ∨ c ≤ b.cntr) → (c ≤ c3) →
          ∀ b ∈ (applyRun f ifc inv obey pf w m q3 c3).1,
            e.cost = b.cost ∧ e.negpos = b.negpos → e.cntr < b.cntr := by
        intro q3 c3 hq3 hc3 b hb ⟨hcost, hneg⟩
        rcases applyRun_trace_mem f ifc inv obey pf w m q3 c3 b hb with h4 | h4
        · rcases hq3 b h4 with h5 | h5
          · have h6 : e.cntr ≤ b.cntr :=
              keyLE_cntr_le (hmin b (hsub.subset h5)) hcost hneg
            have h7 : b.cntr ≠ e.cntr := hne b h5
            omega
          · omega
        · omega
      rcases hstate : e.state with _ | sid
      · by_cases hyield : -e.negpos = (w.length : Int) ∧ (obey = false ∨ ifc.fsf e.output = true)
        · rw [if_pos hyield]
          refine List.pairwise_cons.mpr ⟨?_, ih q2 c hlt2 hnd2⟩
          exact hhead q2 c (fun b hb => Or.inl hb) le_rfl
        · rw [if_neg hyield]
          refine List.pairwise_cons.mpr ⟨?_, ih q2 c hlt2 hnd2⟩
          exact hhead q2 c (fun b hb => Or.inl hb) le_rfl
      · have hstep := @stepPushes_cntr f ifc inv w e sid c
        have hlt3 : ∀ b ∈ q2 ++ (stepPushes f ifc inv w e sid c).1,
            b.cntr < (stepPushes f ifc inv w e sid c).2 := by
          intro b hb
          rcases List.mem_append.mp hb with h5 | h5
          · have := hlt2 b h5
            have := hstep.1
            omega
          · exact (hstep.2.1 b h5).2
        have hnd3 : ((q2 ++ (stepPushes f ifc inv w e sid c).1).map (·.cntr)).Nodup := by
          rw [List.map_append, List.nodup_append]
          refine ⟨hnd2, ?_, ?_⟩
          · show List.Pairwise (fun a b => a ≠ b)
                (((stepPushes f ifc inv w e sid c).1).map (·.cntr))
            exact List.pairwise_map.mpr (hstep.2.2.imp (fun hab => ne_of_lt hab))
          · intro a ha1 ha2
            obtain ⟨b1, hb1, rfl⟩ := List.mem_map.mp ha1
            obtain ⟨b2, hb2, hb2e⟩ := List.mem_map.mp ha2
            have h6 : b1.cntr < c := hlt2 b1 hb1
            have h7 : c ≤ b2.cntr := (hstep.2.1 b2 hb2).1
            omega
        refine List.pairwise_cons.mpr ⟨?_, ih _ _ hlt3 hnd3⟩
        exact hhead (q2 ++ (stepPushes f ifc inv w e sid c).1) (stepPushes f ifc inv w e sid c).2
          (fun b hb => by
            rcases List.mem_append.mp hb with h5 | h5
            · exact Or.inl h5
            · exact Or.inr (hstep.2.1 b h5).1)
          hstep.1

/-- For claim C4 (amended): the priority queue is keyed lexicographically by
(cost, negated input position, insertion counter): the strictly increasing
insertion counter breaks ties only among entries of equal cost AND equal
input position — not among all equal-cost entries, since the negated
position is compared before it.  Consequently any two popped entries that
agree in both cost and position leave the queue in FIFO insertion order, and
in particular results of equal cost are yielded in FIFO order of discovery
of their finished paths, because every yielded result sits at the same
position -len(tokenized input). -/
theorem apply_trace_fifo_per_position (f : FST) (ifc : FlagIface) (inv obey pf : Bool)
    (word : List Char) (fuel : Nat) :
    List.Pairwise (fun a b : Entry => a.cost = b.cost ∧ a.negpos = b.negpos → a.cntr < b.cntr)
        (applyTrace f ifc inv obey pf word fuel) ∧
      List.Pairwise (fun a b : Entry =>
        (a.state = none ∧ b.state = none
          ∧ -a.negpos = ((tokenizeAgainstAlphabet f.alphabet word).length : Int)
          ∧ -b.negpos = ((tokenizeAgainstAlphabet f.alphabet word).length : Int)
          ∧ a.cost = b.cost) → a.cntr < b.cntr)
        (applyTrace f ifc inv obey pf word fuel) := by
  have h := applyRun_trace_fifo f ifc inv obey pf (tokenizeAgainstAlphabet f.alphabet word)
    fuel [⟨0, 0, 0, [], some f.initialstate⟩] 1
    (by
      intro e he
      rcases List.mem_singleton.mp he with rfl
      exact Nat.zero_lt_one)
    (by simp)
  refine ⟨h, h.imp ?_⟩
  intro a b hx hy
  obtain ⟨_, _, h3, h4, h5⟩ := hy
  exact hx ⟨h5, by omega⟩

lemma applyRun_nil_queue (f : FST) (ifc : FlagIface) (inv obey pf : Bool) (w : List Symb)
    (fuel : Nat) (c : Nat) : applyRun f ifc inv obey pf w fuel [] c = ([], []) := by
  cases fuel <;> rfl

lemma fstInit_one (x : Symb) (hx : x ≠ []) :
    FST.fstInit (some (Label.one x)) 0 []
      = ⟨[x], 0, [(0, ⟨[(Label.one x, [⟨1, Label.one x, 0, 1⟩])], none, none, 0, none⟩),
                  (1, ⟨[], none, none, 0, none⟩)], [1]⟩ := by
  unfold FST.fstInit
  rw [if_neg (by simp [hx])]
  rfl

lemma singleAcceptor_yields (x : Symb) (ifc : FlagIface) (obey pf : Bool)
    (hx : x ≠ []) (hdot : x ≠ wildcard) (hfl : ifc.is_flag x = false)
    (hfsf : ∀ out : List Symb, (∀ s ∈ out, ifc.is_flag s = false) → ifc.fsf out = true) :
    ∀ (toks : List Symb) (k : Nat),
      (applyRun (FST.fstInit (some (Label.one x)) 0 []) ifc false obey pf toks (k + 4)
        [⟨0, 0, 0, [], some 0⟩] 1).2 = if toks = [x] then [([x], 0)] else [] := by
  intro toks k
  rw [fstInit_one x hx]
  set A : FST := ⟨[x], 0, [(0, ⟨[(Label.one x, [⟨1, Label.one x, 0, 1⟩])], none, none, 0, none⟩),
                  (1, ⟨[], none, none, 0, none⟩)], [1]⟩ with hA
  have hcond1 : ¬ (labelIn (Label.one x) false = [] ∨ ifc.is_flag (labelIn (Label.one x) false) = true) := by
    simp [labelIn, Label.first, hx, hfl]
  have hstep0 : stepPushes A ifc false toks ⟨0, 0, 0, [], some 0⟩ 0 1
      = if h : toks = [] then ([], 1)
        else if toks.getD 0 [] = x
        then ([⟨0 + 0, 0 - 1, 1, [] ++ [appendedsymOf A toks 0 (labelOut (Label.one x) false)], some 1⟩], 2)
        else ([], 1) := by
    unfold stepPushes
    rw [if_neg (by simp [hA])]
    rw [show (A.getState 0).allTransPairs = [(Label.one x, ⟨1, Label.one x, 0, 1⟩)] from rfl]
    rw [transPushes]
    rw [if_neg hcond1]
    rcases toks with _ | ⟨c, ts⟩
    · rw [if_neg (by simp)]
      rfl
    · rw [if_pos (by simp)]
      rw [dif_neg (by simp)]
      by_cases hcx : c = x
      · rw [if_pos (by simp [nextsymOf, hA, hcx, labelIn, Label.first])]
        rw [if_pos (by simp [hcx])]
        rfl
      · rw [if_neg (by
          simp only [nextsymOf, hA, labelIn, Label.first, List.getD_cons_zero]
          rw [if_neg (by simp [hcx])]
          intro h
          exact absurd h.symm hdot)]
        rw [if_neg (by simp [hcx])]
        rfl
  have hfsfx : ifc.fsf [x] = true := hfsf [x] (by
    intro s hs
    rcases List.mem_singleton.mp hs with rfl
    exact hfl)
  have hout : (if pf = true then [x] else filterFlags ifc [x]) = [x] := by
    cases pf
    · simp [filterFlags, hfl]
    · simp
  rw [show k + 4 = (k + 3) + 1 from rfl, applyRun]
  rw [show popMin [(⟨0, 0, 0, [], some 0⟩ : Entry)] = some (⟨0, 0, 0, [], some 0⟩, []) from rfl]
  dsimp only
  rw [hstep0]
  rcases toks with _ | ⟨c, ts⟩
  · rw [dif_pos rfl]
    rw [show ([] : List Entry) ++ [] = [] from rfl, applyRun_nil_queue]
    rw [if_neg (by simp)]
  · rw [dif_neg (by simp)]
    by_cases hcx : c = x
    · subst hcx
      rw [if_pos (by simp)]
      have happ : appendedsymOf A (c :: ts) 0 (labelOut (Label.one c) false) = c := by
        unfold appendedsymOf
        rw [if_neg (by
          unfold nextsymOf
          simp only [hA, List.getD_cons_zero]
          rw [if_pos (by simp)]
          intro h2
          exact absurd h2.1 hdot)]
        rfl
      rw [happ]
      rw [show ([] : List Entry) ++ [⟨0 + 0, 0 - 1, 1, [] ++ [c], some 1⟩]
          = [⟨0 + 0, 0 - 1, 1, [c], some 1⟩] from rfl]
      rw [show k + 3 = (k + 2) + 1 from rfl, applyRun]
      rw [show popMin [(⟨0 + 0, 0 - 1, 1, [c], some 1⟩ : Entry)]
          = some (⟨0 + 0, 0 - 1, 1, [c], some 1⟩, []) from rfl]
      dsimp only
      rw [show stepPushes A ifc false (c :: ts) ⟨0 + 0, 0 - 1, 1, [c], some 1⟩ 1 2
          = ([⟨0 + 0 + 0, 0 - 1, 2, [c], none⟩], 3) from by
        unfold stepPushes
        rw [if_pos (by simp [hA])]
        rfl]
      rw [show ([] : List Entry) ++ [(⟨0 + 0 + 0, 0 - 1, 2, [c], none⟩ : Entry)]
          = [⟨0 + 0 + 0, 0 - 1, 2, [c], none⟩] from rfl]
      rw [show k + 2 = (k + 1) + 1 from rfl, applyRun]
      rw [show popMin [(⟨0 + 0 + 0, 0 - 1, 2, [c], none⟩ : Entry)]
          = some (⟨0 + 0 + 0, 0 - 1, 2, [c], none⟩, []) from rfl]
      dsimp only
      rcases ts with _ | ⟨t0, ts2⟩
      · rw [if_pos (by
          refine ⟨by norm_num, Or.inr hfsfx⟩)]
        rw [hout, applyRun_nil_queue]
        rw [if_pos rfl]
        norm_num
      · rw [if_neg (by
          intro hcontra
          have h2 := hcontra.1
          simp only [List.length_cons] at h2
          omega)]
        rw [applyRun_nil_queue]
        rw [if_neg (by simp)]
    · rw [if_neg (by simpa using hcx)]
      rw [show ([] : List Entry) ++ [] = [] from rfl, applyRun_nil_queue]
      rw [if_neg (by simp [hcx])]

lemma tokenizeLoop_nil (alph : List Symb) (fuel : Nat) : tokenizeLoop alph fuel [] = [] := by
  cases fuel <;> rfl

lemma tokenizeLoop_flatten (alph : List Symb) :
    ∀ (fuel : Nat) (w : List Char), w.length ≤ fuel → (tokenizeLoop alph fuel w).flatten = w := by
  intro fuel
  induction fuel with
  | zero =>
    intro w hw
    have : w = [] := List.length_eq_zero.mp (Nat.le_zero.mp hw)
    subst this
    rfl
  | succ m ih =>
    intro w hw
    match w with
    | [] => rfl
    | c :: rest =>
      rw [show tokenizeLoop alph (m + 1) (c :: rest)
          = chooseTok alph c rest
            :: tokenizeLoop alph m ((c :: rest).drop (chooseTok alph c rest).length) from rfl]
      rw [List.flatten_cons]
      rw [ih ((c :: rest).drop (chooseTok alph c rest).length) (by
        simp only [List.length_drop, List.length_cons]
        have := chooseTok_length_pos alph c rest
        simp only [List.length_cons] at hw
        omega)]
      nth_rewrite 1 [chooseTok_take_self alph c rest]
      exact List.take_append_drop _ _

lemma tokenize_self (x : Symb) (hx : x ≠ []) : tokenizeAgainstAlphabet [x] x = [x] := by
  match x, hx with
  | c :: rest, _ =>
    unfold tokenizeAgainstAlphabet
    rw [show (c :: rest).length = rest.length + 1 from rfl]
    rw [show tokenizeLoop [c :: rest] (rest.length + 1) (c :: rest)
        = chooseTok [c :: rest] c rest
          :: tokenizeLoop [c :: rest] rest.length
            ((c :: rest).drop (chooseTok [c :: rest] c rest).length) from rfl]
    have hch : chooseTok [c :: rest] c rest = c :: rest := by
      rw [chooseTok_eq_specLongestTok]
      unfold specLongestTok
      have hP : (c :: rest).take (rest.length + 1) ∈ [c :: rest] := by
        rw [show rest.length + 1 = (c :: rest).length from rfl, List.take_length]
        exact List.mem_singleton.mpr rfl
      rw [Nat.findGreatest_succ, if_pos hP]
      rw [if_neg (by omega)]
      rw [show rest.length + 1 = (c :: rest).length from rfl, List.take_length]
    rw [hch]
    rw [show ((c :: rest).drop (c :: rest).length) = [] from List.drop_length _]
    rw [tokenizeLoop_nil]

/-- For claim C8 (amended): for every symbol `x` that is nonempty, is not
the wildcard `'.'`, and is not a flag diacritic, the two-state acceptor
`FST(label=(x,))` accepts exactly the string `x`: `generate(x)` yields
exactly one result, `x` itself at cost 0, and `generate(w)` yields nothing
for every `w ≠ x`.  (The flag filter is only assumed to accept flag-free
outputs, which the spec guarantees.) -/
theorem single_label_acceptor_spec (x : Symb) (w : List Char) (ifc : FlagIface)
    (obey pf : Bool) (fuel : Nat)
    (hx : x ≠ []) (hdot : x ≠ ['.']) (hfl : ifc.is_flag x = false)
    (hfsf : ∀ out : List Symb, (∀ s ∈ out, ifc.is_flag s = false) → ifc.fsf out = true)
    (hfuel : 4 ≤ fuel) :
    applyYields (FST.fstInit (some (Label.one x)) 0 []) ifc false obey pf w fuel
      = if w = x then [([x], 0)] else [] := by
  obtain ⟨k, rfl⟩ : ∃ k, fuel = k + 4 := ⟨fuel - 4, by omega⟩
  unfold applyYields
  have hAinit : (FST.fstInit (some (Label.one x)) 0 []).initialstate = 0 := by
    rw [fstInit_one x hx]
  have hAalph : (FST.fstInit (some (Label.one x)) 0 []).alphabet = [x] := by
    rw [fstInit_one x hx]
  rw [hAinit, hAalph]
  rw [singleAcceptor_yields x ifc obey pf hx hdot hfl hfsf (tokenizeAgainstAlphabet [x] w) k]
  by_cases hw : w = x
  · subst hw
    rw [tokenize_self w hx]
    rw [if_pos rfl, if_pos rfl]
  · rw [if_neg (by
      intro hc
      apply hw
      have := tokenizeLoop_flatten [x] w.length w le_rfl
      unfold tokenizeAgainstAlphabet at hc
      rw [hc] at this
      simpa using this.symm)]
    rw [if_neg hw]

/-- Witness for `single_label_acceptor_spec`: the 'a'-acceptor accepts "a"
(one result at cost 0) and rejects "b". -/
theorem single_label_acceptor_spec_witness :
    (applyYields (FST.fstInit (some (Label.one ['a'])) 0 []) noFlags false true false
        ['a'] 4 = [([['a']], 0)]) ∧
      (applyYields (FST.fstInit (some (Label.one ['a'])) 0 []) noFlags false true false
        ['b'] 4 = []) := by
  constructor
  · have h := single_label_acceptor_spec ['a'] ['a'] noFlags true false 4
      (by decide) (by decide) rfl (fun out _ => rfl) (by omega)
    rw [if_pos rfl] at h
    exact h
  · have h := single_label_acceptor_spec ['a'] ['b'] noFlags true false 4
      (by decide) (by decide) rfl (fun out _ => rfl) (by omega)
    rw [if_neg (by decide)] at h
    exact h

/-- Backtracking matcher for `(?:\\'|[^'])*'` — the tail of the quoted
multichar-symbol branch of `_rlg_tokenize`'s token regex, after the opening
quote.  Returns the matched run (still escaped) and the input after the
closing quote.  The regex prefers consuming an escaped quote `\'` over a
single non-quote character, and only stops the greedy star when forced;
at a bare quote the star cannot continue, so the quote closes the symbol.
The escaped-quote preference can be undone when nothing closes the run
(e.g. `a\'` at end of input re-reads `\` as `[^']` and `'` as the closing
quote), which the second alternative of the backslash case embeds. -/
def starQuote : List Char → Option (List Char × List Char)
  | [] => none
  | '\'' :: rest => some ([], rest)
  | '\\' :: '\'' :: r2 =>
    match starQuote r2 with
    | some pr => some ('\\' :: '\'' :: pr.1, pr.2)
    | none => some (['\\'], r2)
  | c :: rest =>
    (starQuote rest).map (fun pr => (c :: pr.1, pr.2))

/-- `token.replace(r"\'", "'")`: left-to-right non-overlapping replacement of
the two-character sequence backslash-quote by a quote. -/
def unescapeQuotes : List Char → List Char
  | '\\' :: '\'' :: r => '\'' :: unescapeQuotes r
  | c :: r => c :: unescapeQuotes r
  | [] => []

/-- One attempt of `_rlg_tokenize`'s token regex
`'(?P<multi>'|(?:\\'|[^'])*)'|\\(?P<esc>(.))|(?P<single>(.))` at the current
position: the quoted-symbol branch first (inside it, a lone quote as content
before the general run), then a backslash escape, then a single character.
`.` does not match a newline, so a bare newline produces no match at all; an
unescaped space in the single branch becomes the empty (epsilon) token.
Returns the token and the rest of the input. -/
def rlgMatchAt : List Char → Option (Symb × List Char)
  | [] => none
  | '\'' :: rest =>
    (match rest with
      | '\'' :: '\'' :: r3 => some (['\''], r3)
      | _ => none)
    <|> ((starQuote rest).map (fun pr => (unescapeQuotes pr.1, pr.2)))
    <|> some (['\''], rest)
  | '\\' :: c2 :: rest =>
    if c2 ≠ '\n' then some ([c2], rest)
    else some (['\\'], c2 :: rest)
  | ['\\'] => some (['\\'], [])
  | c :: rest =>
    if c = '\n' then none
    else if c = ' ' then some ([], rest)
    else some ([c], rest)

/-- The `finditer` scan of `_rlg_tokenize` over a nonempty string: emit a
token where the regex matches, skip one character where it does not (every
match consumes at least one character, so `length` iterations suffice; the
explicit bound keeps the recursion structural). -/
def rlgScan : Nat → List Char → List Symb
  | _, [] => []
  | 0, _ :: _ => []
  | fuel + 1, c :: rest =>
    match rlgMatchAt (c :: rest) with
    | some (tok, r2) => tok :: rlgScan fuel r2
    | none => rlgScan fuel rest

/-- `_rlg_tokenize(w)`: the empty string tokenizes to a single epsilon token,
anything else is scanned by the token regex. -/
def rlgTokenize (w : Symb) : List Symb :=
  if w = [] then [[]] else rlgScan w.length w

/-- The terminal rule-set name `"#"`. -/
def hashSym : Symb := ['#']

/-- A right-linear-grammar rule: `rule[0]` is either a bare string
(input = output) or an (input, output) pair; `rule[1]` names the
continuation rule-set; `rule[2]`, when present, is the weight. -/
inductive RuleLHS where
  | one (w : Symb)
  | two (i o : Symb)
deriving DecidableEq, Repr

/-- One grammar rule (`weight = none` embeds `len(rule) < 3`). -/
structure Rule where
  lhs : RuleLHS
  target : Symb
  weight : Option ℚ
deriving DecidableEq, Repr

/-- `i = _rlg_tokenize(lhs[0]); o = i if len(lhs) == 1 else
_rlg_tokenize(lhs[1])`. -/
def ruleTokens (r : Rule) : List Symb × List Symb :=
  match r.lhs with
  | .one s0 => (rlgTokenize s0, rlgTokenize s0)
  | .two i0 o0 => (rlgTokenize i0, rlgTokenize o0)

/-- `newtuple = (ii,) if ii == oo else (ii, oo)`. -/
def mkLabel (ii oo : Symb) : Label := if ii = oo then Label.one ii else Label.two ii oo

/-- `itertools.zip_longest(i, o, fillvalue='')`: pair the two token
sequences positionally, padding the shorter with epsilon at the end. -/
def zipPad : List Symb → List Symb → List (Symb × Symb)
  | [], o => o.map (fun oo => ([], oo))
  | ii :: is2, [] => (ii, []) :: zipPad is2 []
  | ii :: is2, oo :: os => (ii, oo) :: zipPad is2 os

/-- One transition recorded while compiling a rule: source state id, label,
weight, target state id. -/
structure Arc where
  src : Nat
  label : Label
  weight : ℚ
  tgt : Nat
deriving DecidableEq, Repr

/-- A default arc (used only as the `getD` fallback in statements). -/
def arcDefault : Arc := ⟨0, Label.one [], 0, 0⟩

/-- The per-rule loop of `FST.rlg` over the positionally paired token
sequences: every position but the last targets a freshly allocated anonymous
state at weight 0; the last position resolves the rule's target rule-set in
`statedict` (a missing name is the compile-time `KeyError`) and carries the
rule's weight.  Returns the recorded arcs and the next fresh state id. -/
def chainArcs (statedict : List (Symb × Nat)) (target : Symb) (w : ℚ) :
    List (Symb × Symb) → Nat → Nat → Except Unit (List Arc × Nat)
  | [], _, fresh => .ok ([], fresh)
  | [(ii, oo)], curr, fresh =>
    match alistGet statedict target with
    | none => .error ()
    | some tgt => .ok ([⟨curr, mkLabel ii oo, w, tgt⟩], fresh)
  | (ii, oo) :: pr :: rest, curr, fresh =>
    match chainArcs statedict target w (pr :: rest) fresh (fresh + 1) with
    | .error e => .error e
    | .ok (arcs, f2) => .ok (⟨curr, mkLabel ii oo, 0, fresh⟩ :: arcs, f2)

/-- Compilation of one rule: pad the token sequences to equal length and
chain them from the rule-set's state. -/
def ruleChain (statedict : List (Symb × Nat)) (target : Symb) (w : ℚ)
    (i o : List Symb) (curr fresh : Nat) : Except Unit (List Arc × Nat) :=
  chainArcs statedict target w (zipPad i o) curr fresh

/-- Set union on symbol lists (`newfst.alphabet |= {sym for sym in ...}`):
insert each new symbol once. -/
def unionSyms (a b : List Symb) : List Symb :=
  b.foldl (fun acc s => if s ∈ acc then acc else acc ++ [s]) a

/-- The inner rule loop of `FST.rlg` for one rule-set. -/
def processRules (statedict : List (Symb × Nat)) (curr : Nat) :
    List Rule → Nat → List Symb → List Arc → Except Unit (List Arc × List Symb × Nat)
  | [], fresh, alpha, arcs => .ok (arcs, alpha, fresh)
  | r :: rest, fresh, alpha, arcs =>
    match ruleChain statedict r.target ((r.weight).getD 0) (ruleTokens r).1 (ruleTokens r).2
        curr fresh with
    | .error e => .error e
    | .ok (arcs2, f2) =>
      processRules statedict curr rest f2
        (unionSyms alpha (((ruleTokens r).1 ++ (ruleTokens r).2).filter
          (fun s => decide (s ≠ []))))
        (arcs ++ arcs2)

/-- The outer loop of `FST.rlg` over the rule-set names (`statedict.keys() -
{"#"}`). -/
def processLex (grammar : List (Symb × List Rule)) (statedict : List (Symb × Nat)) :
    List Symb → Nat → List Symb → List Arc → Except Unit (List Arc × List Symb × Nat)
  | [], fresh, alpha, arcs => .ok (arcs, alpha, fresh)
  | lex :: rest, fresh, alpha, arcs =>
    match processRules statedict ((alistGet statedict lex).getD 0)
        ((alistGet grammar lex).getD []) fresh alpha arcs with
    | .error e => .error e
    | .ok (arcs2, alpha2, f2) => processLex grammar statedict rest f2 alpha2 arcs2

/-- Assign consecutive state ids to the rule-set names. -/
def numberNames : List Symb → Nat → List (Symb × Nat)
  | [], _ => []
  | n :: rest, k => (n, k) :: numberNames rest (k + 1)

/-- Install one recorded arc via `State.add_transition` on its source. -/
def fstAddArc (states : List (Nat × State)) (a : Arc) : List (Nat × State) :=
  alistSet states a.src
    (((alistGet states a.src).getD State.stNew).add_transition a.tgt a.label a.weight)

/-- `grammar.keys() | {"#"}`: the rule-set names, with the terminal name
appended when absent. -/
def rlgAllNames (grammar : List (Symb × List Rule)) : List Symb :=
  grammar.map (·.1) ++ (if hashSym ∈ grammar.map (·.1) then [] else [hashSym])

/-- `statedict = {name: State(name=name) for name in grammar.keys() | {"#"}}`,
with ids standing in for the state objects. -/
def rlgStatedict (grammar : List (Symb × List Rule)) : List (Symb × Nat) :=
  numberNames (rlgAllNames grammar) 0

/-- `FST.rlg(grammar, startsymbol)`: one named state per rule-set name plus
the terminal `"#"` state (final at weight 0), then per rule-set, per rule,
the chained transitions of `chainArcs`; anonymous intermediate states get
the ids from `|names|` upward.  `.error ()` embeds the compile-time
`KeyError` on an undeclared rule-set name (either the start symbol or a
rule's continuation). -/
def rlg (grammar : List (Symb × List Rule)) (startsymbol : Symb) : Except Unit FST :=
  match alistGet (rlgStatedict grammar) startsymbol with
  | none => .error ()
  | some initId =>
    match processLex grammar (rlgStatedict grammar)
        ((rlgAllNames grammar).filter (fun n => decide (n ≠ hashSym)))
        (rlgAllNames grammar).length [] [] with
    | .error e => .error e
    | .ok (arcs, alpha, freshEnd) =>
      .ok ⟨alpha, initId,
        arcs.foldl fstAddArc
          ((rlgStatedict grammar).map (fun p => (p.2, ⟨[], none, none, 0, some p.1⟩))
            ++ (List.range' (rlgAllNames grammar).length
                (freshEnd - (rlgAllNames grammar).length)).map
              (fun sid => (sid, State.stNew))),
        [(alistGet (rlgStatedict grammar) hashSym).getD 0]⟩

/-- `true` iff grammar compilation succeeded. -/
def rlgIsOk : Except Unit FST → Bool
  | .ok _ => true
  | .error _ => false

lemma zipPad_length : ∀ (i o : List Symb), (zipPad i o).length = max i.length o.length := by
  intro i
  induction i with
  | nil =>
    intro o
    simp [zipPad]
  | cons ii is2 ihi =>
    intro o
    cases o with
    | nil =>
      rw [zipPad, List.length_cons, ihi []]
      simp
    | cons oo os =>
      rw [zipPad, List.length_cons, ihi os]
      simp [Nat.succ_max_succ]

lemma zipPad_getD : ∀ (i o : List Symb) (k : Nat),
    (zipPad i o).getD k ([], []) = (i.getD k [], o.getD k []) := by
  intro i
  induction i with
  | nil =>
    intro o
    induction o with
    | nil => intro k; simp [zipPad]
    | cons oo os iho =>
      intro k
      cases k with
      | zero => simp [zipPad]
      | succ k2 =>
        rw [zipPad] at iho ⊢
        rw [List.map_cons, List.getD_cons_succ, List.getD_cons_succ, iho k2]
        simp
  | cons ii is2 ihi =>
    intro o
    cases o with
    | nil =>
      intro k
      cases k with
      | zero => rfl
      | succ k2 =>
        rw [zipPad, List.getD_cons_succ, ihi [] k2]
        rfl
    | cons oo os =>
      intro k
      cases k with
      | zero => rfl
      | succ k2 =>
        rw [zipPad, List.getD_cons_succ, ihi os k2]
        rfl

lemma chainArcs_spec (sd : List (Symb × Nat)) (tgt : Symb) (w : ℚ) :
    ∀ (pairs : List (Symb × Symb)) (curr fresh : Nat) (arcs : List Arc) (fresh2 : Nat),
      chainArcs sd tgt w pairs curr fresh = .ok (arcs, fresh2) →
      arcs.length = pairs.length ∧
        fresh2 = fresh + (pairs.length - 1) ∧
        (∀ k, k < arcs.length →
          (arcs.getD k arcDefault).label
            = mkLabel ((pairs.getD k ([], [])).1) ((pairs.getD k ([], [])).2)) ∧
        (∀ k, k < arcs.length →
          (arcs.getD k arcDefault).src = if k = 0 then curr else fresh + (k - 1)) ∧
        (∀ k, k + 1 < arcs.length →
          (arcs.getD k arcDefault).weight = 0 ∧ (arcs.getD k arcDefault).tgt = fresh + k) ∧
        (pairs ≠ [] → ∃ tid, alistGet sd tgt = some tid ∧
          (arcs.getD (arcs.length - 1) arcDefault).weight = w ∧
          (arcs.getD (arcs.length - 1) arcDefault).tgt = tid) := by
  intro pairs
  induction pairs with
  | nil =>
    intro curr fresh arcs fresh2 hok
    rw [chainArcs] at hok
    injection hok with h1
    injection h1 with ha hb
    subst ha
    subst hb
    refine ⟨rfl, by simp, ?_, ?_, ?_, ?_⟩
    · intro k hk; simp at hk
    · intro k hk; simp at hk
    · intro k hk; simp at hk
    · intro hc; exact absurd rfl hc
  | cons p rest ih =>
    intro curr fresh arcs fresh2 hok
    obtain ⟨ii, oo⟩ := p
    cases rest with
    | nil =>
      rw [chainArcs] at hok
      rcases hg : alistGet sd tgt with _ | tid
      · rw [hg] at hok
        dsimp only at hok
        exact Except.noConfusion hok
      · rw [hg] at hok
        dsimp only at hok
        injection hok with h1
        injection h1 with ha hb
        subst ha
        subst hb
        refine ⟨rfl, by simp, ?_, ?_, ?_, ?_⟩
        · intro k hk
          simp only [List.length_singleton] at hk
          interval_cases k
          rfl
        · intro k hk
          simp only [List.length_singleton] at hk
          interval_cases k
          rfl
        · intro k hk
          simp only [List.length_singleton] at hk
          omega
        · intro _
          exact ⟨tid, rfl, rfl, rfl⟩
    | cons pr rest2 =>
      rw [chainArcs] at hok
      rcases hrec : chainArcs sd tgt w (pr :: rest2) fresh (fresh + 1) with e | ⟨arcs2, f2⟩
      · rw [hrec] at hok; exact Except.noConfusion hok
      · rw [hrec] at hok
        dsimp only at hok
        injection hok with h1
        injection h1 with ha hb
        subst ha
        subst hb
        obtain ⟨ihl, ihf, ihlab, ihsrc, ihwt, ihlast⟩ := ih fresh (fresh + 1) arcs2 f2 hrec
        have hlen2 : arcs2.length = rest2.length + 1 := by
          rw [ihl]; rfl
        refine ⟨by simp [ihl], by simp only [List.length_cons] at *; omega, ?_, ?_, ?_, ?_⟩
        · intro k hk
          cases k with
          | zero => rfl
          | succ k2 =>
            rw [List.getD_cons_succ, List.getD_cons_succ]
            exact ihlab k2 (by simp only [List.length_cons] at hk; omega)
        · intro k hk
          cases k with
          | zero => rfl
          | succ k2 =>
            rw [List.getD_cons_succ]
            rw [ihsrc k2 (by simp only [List.length_cons] at hk; omega)]
            by_cases hk2 : k2 = 0
            · subst hk2
              simp
            · rw [if_neg hk2, if_neg (by omega)]
              omega
        · intro k hk
          cases k with
          | zero =>
            refine ⟨rfl, ?_⟩
            show fresh = fresh + 0
            omega
          | succ k2 =>
            rw [List.getD_cons_succ]
            have := ihwt k2 (by simp only [List.length_cons] at hk; omega)
            refine ⟨this.1, ?_⟩
            rw [this.2]
            omega
        · intro _
          obtain ⟨tid, hg, hw2, ht2⟩ := ihlast (by simp)
          refine ⟨tid, hg, ?_, ?_⟩
          · rw [List.length_cons]
            rw [show arcs2.length + 1 - 1 = (arcs2.length - 1) + 1 from by omega]
            rw [List.getD_cons_succ]
            exact hw2
          · rw [List.length_cons]
            rw [show arcs2.length + 1 - 1 = (arcs2.length - 1) + 1 from by omega]
            rw [List.getD_cons_succ]
            exact ht2

/-- For claim C6: for every rule compiled by `rlg` (hypotheses: at least one
token sequence nonempty — `_rlg_tokenize` output is nonempty for every
string except all-skipped ones — and the chain compiled successfully), the
input and output token sequences are padded at the end with epsilon to equal
length and paired positionally into labels (`getD k []` is the epsilon
fill), every position but the last is a weight-0 transition to the freshly
allocated anonymous state `fresh + k`, and only the last position's
transition goes to the rule's target rule-set state and carries the rule's
weight. -/
theorem rlg_rule_padding_weights (sd : List (Symb × Nat)) (tgt : Symb) (w : ℚ)
    (i o : List Symb) (curr fresh : Nat) (arcs : List Arc) (fresh2 : Nat)
    (hne : i ≠ [] ∨ o ≠ [])
    (hok : ruleChain sd tgt w i o curr fresh = .ok (arcs, fresh2)) :
    arcs.length = max i.length o.length ∧
      (∀ k, k < arcs.length →
        (arcs.getD k arcDefault).label = mkLabel (i.getD k []) (o.getD k [])) ∧
      (∀ k, k + 1 < arcs.length →
        (arcs.getD k arcDefault).weight = 0 ∧ (arcs.getD k arcDefault).tgt = fresh + k) ∧
      (∀ k, k < arcs.length →
        (arcs.getD k arcDefault).src = if k = 0 then curr else fresh + (k - 1)) ∧
      (∃ tid, alistGet sd tgt = some tid ∧
        (arcs.getD (arcs.length - 1) arcDefault).weight = w ∧
        (arcs.getD (arcs.length - 1) arcDefault).tgt = tid) ∧
      fresh2 = fresh + (arcs.length - 1) := by
  obtain ⟨hlen, hf, hlab, hsrc, hwt, hlast⟩ :=
    chainArcs_spec sd tgt w (zipPad i o) curr fresh arcs fresh2 hok
  have hzl := zipPad_length i o
  refine ⟨by rw [hlen, hzl], ?_, hwt, hsrc, ?_, by rw [hf, hlen]⟩
  · intro k hk
    rw [hlab k hk, zipPad_getD]
  · apply hlast
    intro hc
    have hz0 : max i.length o.length = 0 := by
      rw [← hzl, hc]
      rfl
    rcases hne with h | h
    · exact h (List.length_eq_zero.mp (Nat.max_eq_zero_iff.mp hz0).1)
    · exact h (List.length_eq_zero.mp (Nat.max_eq_zero_iff.mp hz0).2)

/-- Witness for `rlg_rule_padding_weights` on the rule ("ca", "x") with
weight 7. -/
theorem rlg_rule_padding_weights_witness :
    ([⟨5, Label.two ['c'] ['x'], 0, 10⟩, ⟨10, Label.two ['a'] [], 7, 0⟩] : List Arc).length
      = max [['c'], ['a']].length [['x']].length :=
  (rlg_rule_padding_weights [(hashSym, 0)] hashSym 7 [['c'], ['a']] [['x']] 5 10
    [⟨5, Label.two ['c'] ['x'], 0, 10⟩, ⟨10, Label.two ['a'] [], 7, 0⟩] 11
    (Or.inl (by decide)) (by with_unfolding_all rfl)).1

/-- For claim C9 (counterexample): a rule whose sides tokenize to ZERO
tokens (the token regex's `.` does not match a newline, so the scan of
`"\n"` skips the character and emits nothing) never reaches the target
lookup, because the transition loop runs zero iterations: `rlg` succeeds
although the rule's continuation "B" is neither a rule-set name of the
grammar nor the terminal "#". -/
theorem rlg_undeclared_target_not_always_error :
    rlgIsOk (rlg [(['S'], [⟨RuleLHS.one ['\n'], ['B'], none⟩])] ['S']) = true ∧
      (['B'] : Symb) ∉ ([(['S'], [(⟨RuleLHS.one ['\n'], ['B'], none⟩ : Rule)])].map
        (fun p => p.1)) ∧
      (['B'] : Symb) ≠ hashSym := by
  refine ⟨by with_unfolding_all rfl, by decide, by decide⟩

lemma numberNames_get_none : ∀ (names : List Symb) (k : Nat) (n : Symb),
    n ∉ names → alistGet (numberNames names k) n = none := by
  intro names
  induction names with
  | nil => intro k n _; rfl
  | cons m rest ih =>
    intro k n hn
    rw [numberNames, alistGet_cons]
    rw [if_neg (by
      intro hc
      exact hn (hc ▸ List.mem_cons_self _ _))]
    exact ih (k + 1) n (fun hc => hn (List.mem_cons_of_mem _ hc))

lemma alistGet_of_mem_nodup {α β : Type} [DecidableEq α] {l : List (α × β)} {k : α} {v : β}
    (hnd : (l.map (·.1)).Nodup) (hm : (k, v) ∈ l) : alistGet l k = some v := by
  induction l with
  | nil => simp at hm
  | cons p rest ih =>
    rw [List.map_cons] at hnd
    have h1 := List.nodup_cons.mp hnd
    rcases List.mem_cons.mp hm with heq | hm2
    · rw [← heq, alistGet_cons, if_pos rfl]
    · rw [alistGet_cons, if_neg (by
        intro hc
        exact h1.1 (hc ▸ List.mem_map.mpr ⟨(k, v), hm2, rfl⟩))]
      exact ih h1.2 hm2

lemma zipPad_ne_nil {i o : List Symb} (hne : i ≠ [] ∨ o ≠ []) : zipPad i o ≠ [] := by
  intro hc
  have hz0 : max i.length o.length = 0 := by
    rw [← zipPad_length, hc]
    rfl
  rcases hne with h | h
  · exact h (List.length_eq_zero.mp (Nat.max_eq_zero_iff.mp hz0).1)
  · exact h (List.length_eq_zero.mp (Nat.max_eq_zero_iff.mp hz0).2)

lemma chainArcs_error (sd : List (Symb × Nat)) (tgt : Symb) (w : ℚ)
    (hnone : alistGet sd tgt = none) :
    ∀ (pairs : List (Symb × Symb)) (curr fresh : Nat), pairs ≠ [] →
      chainArcs sd tgt w pairs curr fresh = .error () := by
  intro pairs
  induction pairs with
  | nil => intro curr fresh hc; exact absurd rfl hc
  | cons p rest ih =>
    intro curr fresh _
    obtain ⟨ii, oo⟩ := p
    cases rest with
    | nil =>
      rw [chainArcs, hnone]
    | cons pr rest2 =>
      rw [chainArcs, ih fresh (fresh + 1) (by simp)]

lemma ruleChain_error (sd : List (Symb × Nat)) (tgt : Symb) (w : ℚ)
    (i o : List Symb) (curr fresh : Nat)
    (hnone : alistGet sd tgt = none) (hne : i ≠ [] ∨ o ≠ []) :
    ruleChain sd tgt w i o curr fresh = .error () := by
  unfold ruleChain
  exact chainArcs_error sd tgt w hnone (zipPad i o) curr fresh (zipPad_ne_nil hne)

lemma processRules_error (sd : List (Symb × Nat)) (curr : Nat) :
    ∀ (rules : List Rule) (fresh : Nat) (alpha : List Symb) (arcs : List Arc) (r : Rule),
      r ∈ rules → alistGet sd r.target = none →
      ((ruleTokens r).1 ≠ [] ∨ (ruleTokens r).2 ≠ []) →
      processRules sd curr rules fresh alpha arcs = .error () := by
  intro rules
  induction rules with
  | nil => intro _ _ _ r hr _ _; simp at hr
  | cons r0 rest ih =>
    intro fresh alpha arcs r hr hnone htok
    rcases List.mem_cons.mp hr with heq | hr2
    · subst heq
      rw [processRules, ruleChain_error sd r.target _ _ _ curr fresh hnone htok]
    · rcases hchain : ruleChain sd r0.target ((r0.weight).getD 0)
          (ruleTokens r0).1 (ruleTokens r0).2 curr fresh with e | pr
      · rw [processRules, hchain]
      · rw [processRules, hchain]
        exact ih _ _ _ r hr2 hnone htok

lemma processLex_error (grammar : List (Symb × List Rule)) (statedict : List (Symb × Nat)) :
    ∀ (lexs : List Symb) (fresh : Nat) (alpha : List Symb) (arcs : List Arc) (lex : Symb),
      lex ∈ lexs →
      (∀ (curr fresh2 : Nat) (alpha2 : List Symb) (arcs2 : List Arc),
        processRules statedict curr ((alistGet grammar lex).getD []) fresh2 alpha2 arcs2
          = .error ()) →
      processLex grammar statedict lexs fresh alpha arcs = .error () := by
  intro lexs
  induction lexs with
  | nil => intro _ _ _ lex hl _; simp at hl
  | cons lex0 rest ih =>
    intro fresh alpha arcs lex hl hrules
    rcases List.mem_cons.mp hl with heq | hl2
    · subst heq
      rw [processLex, hrules]
    · rcases hpr : processRules statedict ((alistGet statedict lex0).getD 0)
          ((alistGet grammar lex0).getD []) fresh alpha arcs with e | pr
      · rw [processLex, hpr]
      · rw [processLex, hpr]
        exact ih _ _ _ lex hl2 hrules

/-- For claim C9 (amended): for every grammar (with the dict invariant of
unique rule-set names) containing a rule whose continuation name is neither
a rule-set name nor the terminal "#", and whose sides tokenize to at least
one token (true of every string except those whose characters are all
skipped by the token regex, such as bare newlines), `rlg` fails during
compilation — the failure is in the compiler itself, before any traversal
object exists, so it is never deferred to generate/analyze/apply. -/
theorem rlg_undeclared_target_errors (grammar : List (Symb × List Rule)) (start : Symb)
    (hnd : (grammar.map (fun p => p.1)).Nodup)
    (lex : Symb) (rules : List Rule) (r : Rule)
    (hmem : (lex, rules) ∈ grammar) (hlex : lex ≠ hashSym) (hr : r ∈ rules)
    (htgt1 : r.target ∉ grammar.map (fun p => p.1)) (htgt2 : r.target ≠ hashSym)
    (htok : (ruleTokens r).1 ≠ [] ∨ (ruleTokens r).2 ≠ []) :
    rlg grammar start = .error () := by
  have hnone_sd : alistGet (rlgStatedict grammar) r.target = none := by
    unfold rlgStatedict
    apply numberNames_get_none
    unfold rlgAllNames
    intro hc
    rcases List.mem_append.mp hc with h | h
    · exact htgt1 h
    · by_cases hh : hashSym ∈ grammar.map (fun p => p.1)
      · rw [if_pos hh] at h
        simp at h
      · rw [if_neg hh] at h
        exact htgt2 (List.mem_singleton.mp h)
  have hlexmem : lex ∈ (rlgAllNames grammar).filter (fun n => decide (n ≠ hashSym)) := by
    refine List.mem_filter.mpr ⟨?_, by simp [hlex]⟩
    unfold rlgAllNames
    exact List.mem_append_left _ (List.mem_map.mpr ⟨(lex, rules), hmem, rfl⟩)
  have hrules_eq : alistGet grammar lex = some rules := alistGet_of_mem_nodup hnd hmem
  have hpr : ∀ (curr fresh2 : Nat) (alpha2 : List Symb) (arcs2 : List Arc),
      processRules (rlgStatedict grammar) curr ((alistGet grammar lex).getD [])
        fresh2 alpha2 arcs2 = .error () := by
    intro curr fresh2 alpha2 arcs2
    rw [hrules_eq]
    exact processRules_error _ curr rules fresh2 alpha2 arcs2 r hr hnone_sd htok
  have hpl := processLex_error grammar (rlgStatedict grammar)
    ((rlgAllNames grammar).filter (fun n => decide (n ≠ hashSym)))
    (rlgAllNames grammar).length [] [] lex hlexmem hpr
  unfold rlg
  rcases hs : alistGet (rlgStatedict grammar) start with _ | initId
  · rfl
  · rw [hpl]

/-- Witness for `rlg_undeclared_target_errors`: a rule "a" continuing to the
undeclared rule-set "B" makes `rlg` fail at compile time. -/
theorem rlg_undeclared_target_errors_witness :
    rlg [(['S'], [⟨RuleLHS.one ['a'], ['B'], none⟩])] ['S'] = .error () :=
  rlg_undeclared_target_errors [(['S'], [⟨RuleLHS.one ['a'], ['B'], none⟩])] ['S']
    (by decide) ['S'] [⟨RuleLHS.one ['a'], ['B'], none⟩] ⟨RuleLHS.one ['a'], ['B'], none⟩
    (List.mem_singleton.mpr rfl) (by decide) (List.mem_singleton.mpr rfl)
    (by decide) (by decide) (Or.inl (by decide))
